import Mathlib

/-!
Verification of the snoopbot permission subsystem
(`src/commands/permission.ts`): the `PermissionUtil` settings store and the
`PermissionCommand` grant/revoke handler, shallowly embedded in Lean.

JavaScript objects are embedded as association lists of `String` keys (JS
object keys are ordered; assignment keeps the position of an existing key and
appends a fresh one, `delete` removes the key).  A field that may be absent
on a record is an `Option`.  A computation that can raise a JS `TypeError`
(reading a property of `undefined`) is embedded in `Option`, `none` marking
the thrown exception.
-/

namespace Snoopbot

/-- A User Record: `{permissions?: string[]}`.  The `permissions` field is
`none` when absent on the JS object. -/
structure UserRecord where
  permissions : Option (List String)
deriving DecidableEq, Repr

/-- A Thread Record: `{users?: {[userID]: UserRecord}}`. -/
structure ThreadRecord where
  users : Option (List (String × UserRecord))
deriving DecidableEq, Repr

/-- The Settings Document persisted in `permissions.json`: a mapping from
`threadID` to Thread Record. -/
abbrev SettingsDoc := List (String × ThreadRecord)

/-- The answer of `AdminUtils.getThreadAdmins(threadID)` (an external
collaborator): an error flag, the admin list (consulted only when no error)
and the bot owner (possibly absent). -/
structure ThreadAdmins where
  hasError : Bool
  admins : List String
  botOwner : Option String

/-- The external admin-registry collaborator, queried by thread ID. -/
abbrev AdminRegistry := String → ThreadAdmins

/-- JS object property read: `obj[k]`, `none` when the key is absent. -/
def lookupKey {α : Type} : List (String × α) → String → Option α
  | [], _ => none
  | (k1, v) :: rest, k => if k1 = k then some v else lookupKey rest k

/-- JS object property write `obj[k] = v`: replaces the value in place when
the key exists, appends the key otherwise. -/
def setKey {α : Type} : List (String × α) → String → α → List (String × α)
  | [], k, v => [(k, v)]
  | (k1, v1) :: rest, k, v =>
    if k1 = k then (k1, v) :: rest else (k1, v1) :: setKey rest k v

/-- JS `delete obj[k]`. -/
def eraseKey {α : Type} : List (String × α) → String → List (String × α)
  | [], _ => []
  | (k1, v1) :: rest, k =>
    if k1 = k then rest else (k1, v1) :: eraseKey rest k

/-- `Object.entries(threadRecord).length` — the code only ever stores the
`users` field on a Thread Record, so the entry count is 0 or 1. -/
def ThreadRecord.fieldCount (tr : ThreadRecord) : Nat :=
  if tr.users.isSome then 1 else 0

/-- The `for(let command of commands) count += perms.includes(command) ? 1 : 0`
loop of `userHasPermission`: over an empty command list the body never runs,
so an absent `permissions` field is never touched; otherwise the first
evaluation of `perms.includes` on the absent field is the JS `TypeError`
(`none`). -/
def permCount (permsOpt : Option (List String)) :
    List String → Nat → Option Nat
  | [], count => some count
  | command :: rest, count =>
    match permsOpt with
    | none => none
    | some perms =>
      permCount permsOpt rest
        (count + if perms.contains command then 1 else 0)

/-- `PermissionUtil.userHasPermission(threadID, userID, ...commands)`.
`none` is the JS `TypeError` thrown when a stored Thread Record lacks a
`users` field (`users[userID]` on `undefined`), or when a User Record lacks
a `permissions` field and the command list is non-empty (`perms.includes` on
`undefined` inside the loop; with no commands the loop body never runs and
`0 === 0` yields `true`). -/
def userHasPermission (registry : AdminRegistry) (doc : SettingsDoc)
    (threadID userID : String) (commands : List String) : Option Bool :=
  let threadAdmins := registry threadID
  let admins := if threadAdmins.hasError then [] else threadAdmins.admins
  if admins.contains userID || threadAdmins.botOwner == some userID then
    some true
  else
    match lookupKey doc threadID with
    | none => some false
    | some threadRecord =>
      match threadRecord.users with
      | none => none
      | some users =>
        match lookupKey users userID with
        | none => some false
        | some user =>
          match permCount user.permissions commands 0 with
          | none => none
          | some count => some (count == commands.length)

/-- `PermissionUtil.addPermissionToUserInThread(threadID, userID, ...commands)`.
Returns the boolean result paired with the document as persisted by
`savePermissionSettings` (unchanged on the `false` early return). -/
def addPermissionToUserInThread (registry : AdminRegistry) (doc : SettingsDoc)
    (threadID userID : String) (commands : List String) :
    Option (Bool × SettingsDoc) :=
  match userHasPermission registry doc threadID userID commands with
  | none => none
  | some true => some (false, doc)
  | some false =>
    let threadRecord := (lookupKey doc threadID).getD ⟨none⟩
    let users := threadRecord.users.getD []
    let user := (lookupKey users userID).getD ⟨none⟩
    let perms := user.permissions.getD []
    let newUsers := setKey users userID ⟨some (perms ++ commands)⟩
    let newDoc := setKey doc threadID ⟨some newUsers⟩
    some (true, newDoc)

/-- `PermissionUtil.removePermissionFromUserInThread(threadID, userID,
...commands)`.  Total: every property access in the source is guarded. -/
def removePermissionFromUserInThread (doc : SettingsDoc)
    (threadID userID : String) (commands : List String) : Bool × SettingsDoc :=
  match lookupKey doc threadID with
  | none => (false, doc)
  | some threadRecord =>
    match threadRecord.users with
    | none => (false, doc)
    | some users =>
      match lookupKey users userID with
      | none => (false, doc)
      | some user =>
        match user.permissions with
        | none => (false, doc)
        | some userGrantedPerms =>
          if userGrantedPerms.length = 0 then (true, doc)
          else
            let newPerms :=
              userGrantedPerms.filter (fun command => !(commands.contains command))
            let newUsers :=
              if newPerms.length = 0 then eraseKey users userID
              else setKey users userID ⟨some newPerms⟩
            let newThreadRecord : ThreadRecord :=
              if newUsers.length = 0 then ⟨none⟩ else ⟨some newUsers⟩
            let newDoc :=
              if newThreadRecord.fieldCount = 0 then eraseKey doc threadID
              else setKey doc threadID newThreadRecord
            (true, newDoc)

/-! Observers used to state the claims. -/

/-- The Thread Record stored for a thread, if any. -/
def threadAt (doc : SettingsDoc) (threadID : String) : Option ThreadRecord :=
  lookupKey doc threadID

/-- The `users` mapping of the thread, if the thread and the field exist. -/
def usersAt (doc : SettingsDoc) (threadID : String) :
    Option (List (String × UserRecord)) :=
  (lookupKey doc threadID).bind (·.users)

/-- The User Record of a user in a thread, if the whole path exists. -/
def userAt (doc : SettingsDoc) (threadID userID : String) : Option UserRecord :=
  (usersAt doc threadID).bind (fun users => lookupKey users userID)

/-- The stored permission list of a user in a thread, if the whole path
(thread, `users`, user, `permissions`) exists. -/
def permsAt (doc : SettingsDoc) (threadID userID : String) :
    Option (List String) :=
  (userAt doc threadID userID).bind (·.permissions)

/-- The admin/owner test inlined in `userHasPermission`: member of the admin
list (empty when the registry lookup failed) or equal to the bot owner. -/
def isAdminOrOwner (registry : AdminRegistry) (threadID userID : String) : Bool :=
  let threadAdmins := registry threadID
  let admins := if threadAdmins.hasError then [] else threadAdmins.admins
  admins.contains userID || threadAdmins.botOwner == some userID

/-! ## Basic lemmas about the embedded JS object operations -/

theorem lookupKey_setKey_self {α : Type} (l : List (String × α)) (k : String)
    (v : α) : lookupKey (setKey l k v) k = some v := by
  induction l with
  | nil => simp [setKey, lookupKey]
  | cons hd tl ih =>
    obtain ⟨k1, v1⟩ := hd
    by_cases h : k1 = k <;> simp [setKey, lookupKey, h, ih]

theorem lookupKey_setKey_ne {α : Type} (l : List (String × α)) (k k' : String)
    (v : α) (h : k' ≠ k) : lookupKey (setKey l k v) k' = lookupKey l k' := by
  have hk : k ≠ k' := Ne.symm h
  induction l with
  | nil => simp [setKey, lookupKey, hk]
  | cons hd tl ih =>
    obtain ⟨k1, v1⟩ := hd
    by_cases h1 : k1 = k
    · subst h1
      simp [setKey, lookupKey, hk]
    · simp only [setKey, if_neg h1, lookupKey]
      by_cases h2 : k1 = k' <;> simp [h2, ih]

/-- A successful `lookupKey` means the key occurs among the stored keys. -/
theorem lookupKey_mem_keys {α : Type} (l : List (String × α)) (k : String)
    (v : α) (h : lookupKey l k = some v) : k ∈ l.map Prod.fst := by
  induction l with
  | nil => simp [lookupKey] at h
  | cons hd tl ih =>
    obtain ⟨k1, v1⟩ := hd
    simp only [lookupKey] at h
    by_cases h1 : k1 = k
    · simp [h1]
    · simp only [if_neg h1] at h
      simp [ih h]

theorem lookupKey_eraseKey_self {α : Type} (l : List (String × α)) (k : String)
    (hnd : (l.map Prod.fst).Nodup) : lookupKey (eraseKey l k) k = none := by
  induction l with
  | nil => simp [eraseKey, lookupKey]
  | cons hd tl ih =>
    obtain ⟨k1, v1⟩ := hd
    simp only [List.map_cons, List.nodup_cons] at hnd
    by_cases h : k1 = k
    · subst h
      cases hlk : lookupKey tl k1 with
      | none => simpa [eraseKey] using hlk
      | some v => exact absurd (lookupKey_mem_keys tl k1 v hlk) hnd.1
    · simp [eraseKey, h, lookupKey, ih hnd.2]

theorem lookupKey_eraseKey_ne {α : Type} (l : List (String × α)) (k k' : String)
    (h : k' ≠ k) : lookupKey (eraseKey l k) k' = lookupKey l k' := by
  have hk : k ≠ k' := Ne.symm h
  induction l with
  | nil => simp [eraseKey]
  | cons hd tl ih =>
    obtain ⟨k1, v1⟩ := hd
    by_cases h1 : k1 = k
    · subst h1
      simp [eraseKey, lookupKey, hk]
    · simp only [eraseKey, if_neg h1, lookupKey]
      by_cases h2 : k1 = k' <;> simp [h2, ih]

/-- On a present permission list the counting loop returns and counts with
`countP`. -/
theorem permCount_some (perms commands : List String) (count : Nat) :
    permCount (some perms) commands count =
      some (count + commands.countP (fun command => perms.contains command)) := by
  induction commands generalizing count with
  | nil => simp [permCount]
  | cons c cs ih =>
    simp only [permCount, ih, List.countP_cons, Option.some.injEq]
    by_cases h : perms.contains c <;> simp [h] <;> omega

/-- `userHasPermission` in terms of the `isAdminOrOwner` observer and a
`countP`: an empty command list short-circuits to `true` on any existing
User Record, and an absent `permissions` field throws only for a non-empty
command list. -/
theorem userHasPermission_def (registry : AdminRegistry) (doc : SettingsDoc)
    (threadID userID : String) (commands : List String) :
    userHasPermission registry doc threadID userID commands =
      if isAdminOrOwner registry threadID userID then some true
      else
        match lookupKey doc threadID with
        | none => some false
        | some threadRecord =>
          match threadRecord.users with
          | none => none
          | some users =>
            match lookupKey users userID with
            | none => some false
            | some user =>
              match commands, user.permissions with
              | [], _ => some true
              | _ :: _, none => none
              | _ :: _, some perms =>
                some (commands.countP (fun command => perms.contains command)
                  == commands.length) := by
  simp only [userHasPermission, isAdminOrOwner]
  refine if_congr Iff.rfl rfl ?_
  cases hth : lookupKey doc threadID with
  | none => rfl
  | some threadRecord =>
    cases hus : threadRecord.users with
    | none => simp [hus]
    | some users =>
      cases huser : lookupKey users userID with
      | none => simp [hus, huser]
      | some user =>
        cases hcs : commands with
        | nil => simp [hus, huser, permCount]
        | cons c cs =>
          cases hperms : user.permissions with
          | none => simp [hus, huser, hperms, permCount]
          | some perms => simp [hus, huser, hperms, permCount_some]

/-! ## C1: characterisation of `userHasPermission` -/

/-- **C1.** `userHasPermission(threadID, userID, ...commands)` (whenever it
returns rather than throwing) returns `true` iff the user is in the thread's
admin set or is the bot owner (a failed registry lookup counting as an empty
admin set), or a User Record for the user exists under the thread and every
requested command is in its stored permission list (vacuously so for an
empty command list, even on a record without a `permissions` field); with
the Thread Record or User Record absent (and the user no admin/owner) it
returns `false`. -/
theorem userHasPermission_iff (registry : AdminRegistry) (doc : SettingsDoc)
    (threadID userID : String) (commands : List String) (b : Bool)
    (h : userHasPermission registry doc threadID userID commands = some b) :
    b = true ↔ (isAdminOrOwner registry threadID userID = true ∨
      ∃ user, userAt doc threadID userID = some user ∧
        ∀ c ∈ commands, ∃ perms, user.permissions = some perms ∧
          perms.contains c = true) := by
  rw [userHasPermission_def] at h
  by_cases hadm : isAdminOrOwner registry threadID userID = true
  · rw [if_pos hadm] at h
    injection h with h
    subst h
    simp [hadm]
  · rw [if_neg hadm] at h
    simp only [userAt, usersAt]
    cases hth : lookupKey doc threadID with
    | none =>
      simp only [hth] at h
      injection h with h
      subst h
      simp [hth, hadm]
    | some threadRecord =>
      simp only [hth] at h
      cases hus : threadRecord.users with
      | none =>
        simp only [hus] at h
        exact absurd h (by simp)
      | some users =>
        simp only [hus] at h
        cases huser : lookupKey users userID with
        | none =>
          simp only [huser] at h
          injection h with h
          subst h
          simp [hth, hus, huser, hadm]
        | some user =>
          simp only [huser] at h
          simp only [hth, hus, huser, Option.some_bind, Option.some.injEq,
            hadm, false_or]
          cases hcs : commands with
          | nil =>
            simp only [hcs] at h
            injection h with h
            subst h
            simp only [List.not_mem_nil, false_implies, implies_true,
              and_true, true_iff]
            exact Or.inr ⟨user, rfl⟩
          | cons c cs =>
            subst hcs
            cases hperms : user.permissions with
            | none =>
              simp only [hperms] at h
              exact absurd h (by simp)
            | some perms =>
              simp only [hperms] at h
              injection h with h
              subst h
              rw [beq_iff_eq]
              constructor
              · intro hb
                refine Or.inr ⟨user, rfl, ?_⟩
                intro c2 hc2
                exact ⟨perms, hperms, List.countP_eq_length.mp hb c2 hc2⟩
              · rintro (hfalse | ⟨user2, hu2, hall⟩)
                · exact absurd hfalse (by decide)
                · subst hu2
                  apply List.countP_eq_length.mpr
                  intro c2 hc2
                  obtain ⟨perms2, hp2, hcont⟩ := hall c2 hc2
                  rw [hperms] at hp2
                  injection hp2 with hp2
                  subst hp2
                  exact hcont

/-- Witness for C1 at concrete inputs. -/
theorem userHasPermission_iff_witness :
    (true = true ↔ (isAdminOrOwner (fun _ => ⟨false, [], some "owner"⟩)
        "T1" "U1" = true ∨
      ∃ user, userAt [("T1", ⟨some [("U1", ⟨some ["meme"]⟩)]⟩)] "T1" "U1" =
          some user ∧
        ∀ c ∈ ["meme"], ∃ perms, user.permissions = some perms ∧
          perms.contains c = true)) :=
  userHasPermission_iff (fun _ => ⟨false, [], some "owner"⟩)
    [("T1", ⟨some [("U1", ⟨some ["meme"]⟩)]⟩)] "T1" "U1" ["meme"] true
    (by decide)

/-! ## C2: characterisation of `addPermissionToUserInThread` -/

/-- The defaulted `users` object built by `addPermissionToUserInThread`
looks up exactly like the stored one. -/
theorem usersDefault_lookup (doc : SettingsDoc) (threadID userID2 : String) :
    lookupKey ((((lookupKey doc threadID).getD ⟨none⟩).users).getD []) userID2 =
      userAt doc threadID userID2 := by
  unfold userAt usersAt
  cases hth : lookupKey doc threadID with
  | none => simp [lookupKey]
  | some threadRecord =>
    cases hus : threadRecord.users with
    | none => simp [hus, lookupKey]
    | some users => simp [hus]

/-- The defaulted permission list built by `addPermissionToUserInThread` is
the stored one, or `[]` when any level of the path is absent. -/
theorem permsDefault_eq (doc : SettingsDoc) (threadID userID : String) :
    ((((lookupKey ((((lookupKey doc threadID).getD ⟨none⟩).users).getD [])
        userID).getD ⟨none⟩).permissions).getD []) =
      (permsAt doc threadID userID).getD [] := by
  rw [usersDefault_lookup]
  unfold permsAt
  cases huser : userAt doc threadID userID with
  | none => simp
  | some user =>
    cases hperms : user.permissions with
    | none => simp [hperms]
    | some perms => simp [hperms]

/-- **C2.** `addPermissionToUserInThread` is a no-op returning `false` when
`userHasPermission` already holds for the same triple (admin/owner and
already-held-superset cases included); otherwise it creates every absent
level of the path, appends the requested commands to the stored permission
list without deduplication, persists, and returns `true`, leaving every
other thread and every other user of the thread unchanged. -/
theorem addPermissionToUserInThread_spec (registry : AdminRegistry)
    (doc : SettingsDoc) (threadID userID : String) (commands : List String) :
    (userHasPermission registry doc threadID userID commands = some true →
      addPermissionToUserInThread registry doc threadID userID commands =
        some (false, doc)) ∧
    (userHasPermission registry doc threadID userID commands = some false →
      ∃ newDoc,
        addPermissionToUserInThread registry doc threadID userID commands =
          some (true, newDoc) ∧
        permsAt newDoc threadID userID =
          some ((permsAt doc threadID userID).getD [] ++ commands) ∧
        (∀ threadID2, threadID2 ≠ threadID →
          threadAt newDoc threadID2 = threadAt doc threadID2) ∧
        (∀ userID2, userID2 ≠ userID →
          userAt newDoc threadID userID2 = userAt doc threadID userID2)) := by
  constructor
  · intro htrue
    unfold addPermissionToUserInThread
    simp only [htrue]
  · intro hfalse
    unfold addPermissionToUserInThread
    simp only [hfalse]
    refine ⟨_, rfl, ?_, ?_, ?_⟩
    · simp only [permsAt, userAt, usersAt, threadAt, lookupKey_setKey_self,
        Option.some_bind, lookupKey_setKey_self, Option.some.injEq]
      rw [permsDefault_eq]
      rfl
    · intro threadID2 hne
      simp only [threadAt, lookupKey_setKey_ne _ _ _ _ hne]
    · intro userID2 hne
      simp only [userAt, usersAt, lookupKey_setKey_self, Option.some_bind]
      rw [lookupKey_setKey_ne _ _ _ _ hne, usersDefault_lookup]
      simp [userAt, usersAt]

/-- Witness for C2: the no-op branch at an owner, and the granting branch on
the empty document. -/
theorem addPermissionToUserInThread_spec_witness :
    (addPermissionToUserInThread (fun _ => ⟨false, [], some "U1"⟩) []
      "T1" "U1" ["meme"] = some (false, [])) ∧
    (∃ newDoc,
      addPermissionToUserInThread (fun _ => ⟨false, [], none⟩) []
        "T1" "U1" ["meme"] = some (true, newDoc) ∧
      permsAt newDoc "T1" "U1" =
        some ((permsAt ([] : SettingsDoc) "T1" "U1").getD [] ++ ["meme"]) ∧
      (∀ threadID2, threadID2 ≠ "T1" →
        threadAt newDoc threadID2 = threadAt ([] : SettingsDoc) threadID2) ∧
      (∀ userID2, userID2 ≠ "U1" →
        userAt newDoc "T1" userID2 = userAt ([] : SettingsDoc) "T1" userID2)) :=
  ⟨(addPermissionToUserInThread_spec (fun _ => ⟨false, [], some "U1"⟩) []
      "T1" "U1" ["meme"]).1 (by decide),
   (addPermissionToUserInThread_spec (fun _ => ⟨false, [], none⟩) []
      "T1" "U1" ["meme"]).2 (by decide)⟩

/-! ## C3: characterisation of `removePermissionFromUserInThread` -/

/-- If erasing a key empties the object, no other key was present. -/
theorem lookupKey_of_eraseKey_nil {α : Type} (l : List (String × α))
    (k k' : String) (h : eraseKey l k = []) (hne : k' ≠ k) :
    lookupKey l k' = none := by
  cases l with
  | nil => rfl
  | cons hd tl =>
    obtain ⟨k1, v1⟩ := hd
    by_cases h1 : k1 = k
    · subst h1
      simp only [eraseKey, if_pos rfl] at h
      subst h
      simp [lookupKey, Ne.symm hne]
    · simp [eraseKey, h1] at h

/-- A JS object assignment never yields an empty object. -/
theorem setKey_ne_nil {α : Type} (l : List (String × α)) (k : String) (v : α) :
    setKey l k v ≠ [] := by
  cases l with
  | nil => simp [setKey]
  | cons hd tl =>
    obtain ⟨k1, v1⟩ := hd
    by_cases h1 : k1 = k <;> simp [setKey, h1]

/-- **C3.** `removePermissionFromUserInThread` returns `false` leaving the
document untouched when any level of the path (Thread Record, `users`
mapping, User Record, `permissions`) is absent; returns `true` without
changing anything when the stored permission list is empty; otherwise it
filters out every occurrence of each requested command and prunes the empty
User Record, then the empty `users` mapping, then the empty Thread Record,
persists and returns `true` — in particular removing all of a user's held
commands leaves the user's record absent from the document. -/
theorem removePermissionFromUserInThread_spec (doc : SettingsDoc)
    (threadID userID : String) (commands : List String)
    (hnd : (doc.map Prod.fst).Nodup)
    (hndu : ((((usersAt doc threadID).getD []).map Prod.fst)).Nodup) :
    (permsAt doc threadID userID = none →
      removePermissionFromUserInThread doc threadID userID commands =
        (false, doc)) ∧
    (permsAt doc threadID userID = some [] →
      removePermissionFromUserInThread doc threadID userID commands =
        (true, doc)) ∧
    (∀ users user perms, usersAt doc threadID = some users →
      lookupKey users userID = some user → user.permissions = some perms →
      perms ≠ [] →
      ∃ newDoc,
        removePermissionFromUserInThread doc threadID userID commands =
          (true, newDoc) ∧
        permsAt newDoc threadID userID =
          (if perms.filter (fun command => !(commands.contains command)) = []
            then none
            else some (perms.filter
              (fun command => !(commands.contains command)))) ∧
        (perms.filter (fun command => !(commands.contains command)) = [] →
          userAt newDoc threadID userID = none) ∧
        (perms.filter (fun command => !(commands.contains command)) = [] →
          eraseKey users userID = [] → threadAt newDoc threadID = none) ∧
        (∀ threadID2, threadID2 ≠ threadID →
          threadAt newDoc threadID2 = threadAt doc threadID2) ∧
        (∀ userID2, userID2 ≠ userID →
          userAt newDoc threadID userID2 = userAt doc threadID userID2)) := by
  refine ⟨?_, ?_, ?_⟩
  · intro habs
    unfold removePermissionFromUserInThread
    simp only [permsAt, userAt, usersAt] at habs
    cases hth : lookupKey doc threadID with
    | none => simp [hth]
    | some threadRecord =>
      simp only [hth, Option.some_bind] at habs
      simp only [hth]
      cases hus : threadRecord.users with
      | none => simp [hus]
      | some users =>
        simp only [hus, Option.some_bind] at habs
        simp only [hus]
        cases huser : lookupKey users userID with
        | none => simp [huser]
        | some user =>
          simp only [huser, Option.some_bind] at habs
          simp only [huser]
          cases hperms : user.permissions with
          | none => simp [hperms]
          | some perms => simp [hperms] at habs
  · intro hempty
    unfold removePermissionFromUserInThread
    simp only [permsAt, userAt, usersAt, Option.bind_eq_some] at hempty
    obtain ⟨user, ⟨users, ⟨threadRecord, hth, husf⟩, huser⟩, hperms⟩ := hempty
    simp [hth, husf, huser, hperms]
  · intro users user perms hus huser hperms hne
    have hndu2 : (users.map Prod.fst).Nodup := by
      rw [hus] at hndu
      simpa using hndu
    have hthx : ∃ threadRecord, lookupKey doc threadID = some threadRecord ∧
        threadRecord.users = some users := by
      simp only [usersAt, Option.bind_eq_some] at hus
      exact hus
    obtain ⟨threadRecord, hth, husf⟩ := hthx
    have hU : ∀ userID2, userAt doc threadID userID2 = lookupKey users userID2 := by
      intro userID2
      simp [userAt, hus]
    by_cases hnil : perms.filter (fun command => !(commands.contains command)) = []
    · by_cases husnil : eraseKey users userID = []
      · have hc1 : ¬(perms.length = 0) := by simpa using hne
        have hc2 : (perms.filter
            (fun command => !(commands.contains command))).length = 0 := by
          rw [hnil]; rfl
        have hc3 : (eraseKey users userID).length = 0 := by rw [husnil]; rfl
        have hstep : removePermissionFromUserInThread doc threadID userID commands =
            (true, eraseKey doc threadID) := by
          unfold removePermissionFromUserInThread
          simp only [hth, husf, huser, hperms, if_neg hc1, if_pos hc2, if_pos hc3,
            ThreadRecord.fieldCount]
          simp
        refine ⟨_, hstep, ?_, ?_, ?_, ?_, ?_⟩
        · rw [if_pos hnil]
          simp [permsAt, userAt, usersAt,
            lookupKey_eraseKey_self doc threadID hnd]
        · intro _
          simp [userAt, usersAt, lookupKey_eraseKey_self doc threadID hnd]
        · intro _ _
          simp [threadAt, lookupKey_eraseKey_self doc threadID hnd]
        · intro threadID2 hne2
          simp only [threadAt]
          exact lookupKey_eraseKey_ne doc threadID threadID2 hne2
        · intro userID2 hne2
          rw [hU userID2, lookupKey_of_eraseKey_nil users userID userID2 husnil hne2]
          simp [userAt, usersAt, lookupKey_eraseKey_self doc threadID hnd]
      · have hc1 : ¬(perms.length = 0) := by simpa using hne
        have hc2 : (perms.filter
            (fun command => !(commands.contains command))).length = 0 := by
          rw [hnil]; rfl
        have hc3 : ¬((eraseKey users userID).length = 0) := by simpa using husnil
        have hstep : removePermissionFromUserInThread doc threadID userID commands =
            (true, setKey doc threadID ⟨some (eraseKey users userID)⟩) := by
          unfold removePermissionFromUserInThread
          simp only [hth, husf, huser, hperms, if_neg hc1, if_pos hc2, if_neg hc3,
            ThreadRecord.fieldCount]
          simp
        refine ⟨_, hstep, ?_, ?_, ?_, ?_, ?_⟩
        · rw [if_pos hnil]
          simp [permsAt, userAt, usersAt, lookupKey_setKey_self,
            lookupKey_eraseKey_self users userID hndu2]
        · intro _
          simp [userAt, usersAt, lookupKey_setKey_self,
            lookupKey_eraseKey_self users userID hndu2]
        · intro _ husnil2
          exact absurd husnil2 husnil
        · intro threadID2 hne2
          simp only [threadAt]
          exact lookupKey_setKey_ne doc threadID threadID2 _ hne2
        · intro userID2 hne2
          rw [hU userID2]
          simp only [userAt, usersAt, lookupKey_setKey_self, Option.some_bind]
          exact lookupKey_eraseKey_ne users userID userID2 hne2
    · have hc1 : ¬(perms.length = 0) := by simpa using hne
      have hc2 : ¬((perms.filter
          (fun command => !(commands.contains command))).length = 0) := by
        simpa using hnil
      have hc4 : ¬((setKey users userID ⟨some (perms.filter
          (fun command => !(commands.contains command)))⟩).length = 0) := by
        simpa using setKey_ne_nil users userID _
      have hstep : removePermissionFromUserInThread doc threadID userID commands =
          (true, setKey doc threadID ⟨some (setKey users userID
            ⟨some (perms.filter (fun command => !(commands.contains command)))⟩)⟩) := by
        unfold removePermissionFromUserInThread
        simp only [hth, husf, huser, hperms, if_neg hc1, if_neg hc2, if_neg hc4,
          ThreadRecord.fieldCount]
        simp
      refine ⟨_, hstep, ?_, ?_, ?_, ?_, ?_⟩
      · rw [if_neg hnil]
        simp [permsAt, userAt, usersAt, lookupKey_setKey_self]
      · intro hnil2
        exact absurd hnil2 hnil
      · intro hnil2 _
        exact absurd hnil2 hnil
      · intro threadID2 hne2
        simp only [threadAt]
        exact lookupKey_setKey_ne doc threadID threadID2 _ hne2
      · intro userID2 hne2
        rw [hU userID2]
        simp only [userAt, usersAt, lookupKey_setKey_self, Option.some_bind]
        exact lookupKey_setKey_ne users userID userID2 _ hne2

/-- Witness for C3: the three branches at concrete inputs (absent path;
stored empty permission list; full removal with prune cascade). -/
theorem removePermissionFromUserInThread_spec_witness :
    (removePermissionFromUserInThread [] "T1" "U1" ["meme"] = (false, [])) ∧
    (removePermissionFromUserInThread [("T1", ⟨some [("U1", ⟨some []⟩)]⟩)]
        "T1" "U1" ["meme"] = (true, [("T1", ⟨some [("U1", ⟨some []⟩)]⟩)])) ∧
    (∃ newDoc,
      removePermissionFromUserInThread
          [("T1", ⟨some [("U1", ⟨some ["meme"]⟩)]⟩)] "T1" "U1" ["meme"] =
        (true, newDoc) ∧
      permsAt newDoc "T1" "U1" =
        (if (["meme"] : List String).filter
            (fun command => !((["meme"] : List String).contains command)) = []
          then none
          else some ((["meme"] : List String).filter
            (fun command => !((["meme"] : List String).contains command)))) ∧
      ((["meme"] : List String).filter
          (fun command => !((["meme"] : List String).contains command)) = [] →
        userAt newDoc "T1" "U1" = none) ∧
      ((["meme"] : List String).filter
          (fun command => !((["meme"] : List String).contains command)) = [] →
        eraseKey [("U1", (⟨some ["meme"]⟩ : UserRecord))] "U1" = [] →
        threadAt newDoc "T1" = none) ∧
      (∀ threadID2, threadID2 ≠ "T1" → threadAt newDoc threadID2 =
        threadAt [("T1", ⟨some [("U1", ⟨some ["meme"]⟩)]⟩)] threadID2) ∧
      (∀ userID2, userID2 ≠ "U1" → userAt newDoc "T1" userID2 =
        userAt [("T1", ⟨some [("U1", ⟨some ["meme"]⟩)]⟩)] "T1" userID2)) :=
  ⟨(removePermissionFromUserInThread_spec [] "T1" "U1" ["meme"]
      (by decide) (by decide)).1 (by decide),
   (removePermissionFromUserInThread_spec [("T1", ⟨some [("U1", ⟨some []⟩)]⟩)]
      "T1" "U1" ["meme"] (by decide) (by decide)).2.1 (by decide),
   (removePermissionFromUserInThread_spec
      [("T1", ⟨some [("U1", ⟨some ["meme"]⟩)]⟩)] "T1" "U1" ["meme"]
      (by decide) (by decide)).2.2
      [("U1", ⟨some ["meme"]⟩)] ⟨some ["meme"]⟩ ["meme"]
      (by decide) (by decide) (by decide) (by decide)⟩

/-! ## C7: removing commands the user does not hold is a no-op on the list -/

/-- **C7.** When the whole path exists and none of the user's stored
commands is in the removal set, `removePermissionFromUserInThread` returns
`true` and the user's permission list afterwards is the same list, element
for element. -/
theorem removePermissionFromUserInThread_frame (doc : SettingsDoc)
    (threadID userID : String) (commands perms : List String)
    (hpermsAt : permsAt doc threadID userID = some perms)
    (hdisj : ∀ c ∈ perms, commands.contains c = false) :
    ∃ newDoc,
      removePermissionFromUserInThread doc threadID userID commands =
        (true, newDoc) ∧
      permsAt newDoc threadID userID = some perms := by
  simp only [permsAt, userAt, usersAt, Option.bind_eq_some] at hpermsAt
  obtain ⟨user, ⟨users, ⟨threadRecord, hth, husf⟩, huser⟩, hpermsf⟩ := hpermsAt
  by_cases hnil : perms = []
  · subst hnil
    unfold removePermissionFromUserInThread
    simp only [hth, husf, huser, hpermsf, List.length_nil, if_pos]
    refine ⟨doc, by simp, ?_⟩
    simp [permsAt, userAt, usersAt, hth, husf, huser, hpermsf]
  · have hfilter : perms.filter (fun command => !(commands.contains command)) =
        perms := by
      rw [List.filter_eq_self]
      intro a ha
      rw [hdisj a ha]
      rfl
    have hc1 : ¬(perms.length = 0) := by simpa using hnil
    have hc4 : ¬((setKey users userID ⟨some perms⟩).length = 0) := by
      simpa using setKey_ne_nil users userID _
    unfold removePermissionFromUserInThread
    simp only [hth, husf, huser, hpermsf, hfilter, if_neg hc1, if_neg hc4,
      ThreadRecord.fieldCount]
    refine ⟨setKey doc threadID ⟨some (setKey users userID ⟨some perms⟩)⟩,
      by simp, ?_⟩
    simp [permsAt, userAt, usersAt, lookupKey_setKey_self]

/-- Witness for C7: removing a command the user never held. -/
theorem removePermissionFromUserInThread_frame_witness :
    ∃ newDoc,
      removePermissionFromUserInThread
          [("T1", ⟨some [("U1", ⟨some ["meme"]⟩)]⟩)] "T1" "U1" ["kick"] =
        (true, newDoc) ∧
      permsAt newDoc "T1" "U1" = some ["meme"] :=
  removePermissionFromUserInThread_frame
    [("T1", ⟨some [("U1", ⟨some ["meme"]⟩)]⟩)] "T1" "U1" ["kick"] ["meme"]
    (by decide) (by decide)

/-! ## C4: a grant is immediately visible to the permission check -/

/-- **C4.** After `addPermissionToUserInThread` returns (whether it granted
or was a no-op because the commands were already held), `userHasPermission`
on the resulting document with the same thread, user and non-empty command
list yields `true`. -/
theorem addPermission_then_userHasPermission (registry : AdminRegistry)
    (doc : SettingsDoc) (threadID userID : String) (commands : List String)
    (b : Bool) (newDoc : SettingsDoc) (hne : commands ≠ [])
    (hadd : addPermissionToUserInThread registry doc threadID userID commands =
      some (b, newDoc)) :
    userHasPermission registry newDoc threadID userID commands = some true := by
  unfold addPermissionToUserInThread at hadd
  cases hchk : userHasPermission registry doc threadID userID commands with
  | none => simp [hchk] at hadd
  | some bc =>
    simp only [hchk] at hadd
    cases bc with
    | true =>
      injection hadd with hadd
      injection hadd with hb hdoc
      subst hdoc
      exact hchk
    | false =>
      injection hadd with hadd
      injection hadd with hb hdoc
      have hadm : isAdminOrOwner registry threadID userID = false := by
        rw [userHasPermission_def] at hchk
        by_contra hcon
        rw [Bool.not_eq_false] at hcon
        rw [if_pos hcon] at hchk
        simp at hchk
      rw [userHasPermission_def, hadm]
      subst hdoc
      cases commands with
      | nil => exact absurd rfl hne
      | cons c cs =>
        simp only [Bool.false_eq_true, if_false, lookupKey_setKey_self,
          Option.some.injEq]
        rw [beq_iff_eq]
        exact List.countP_eq_length.mpr (fun c2 hc2 => by
          simp [List.mem_append, hc2])

/-- Witness for C4: a fresh grant on the empty document, then the check. -/
theorem addPermission_then_userHasPermission_witness :
    userHasPermission (fun _ => ⟨false, [], none⟩)
      [("T1", ⟨some [("U1", ⟨some ["meme"]⟩)]⟩)] "T1" "U1" ["meme"] =
      some true :=
  addPermission_then_userHasPermission (fun _ => ⟨false, [], none⟩) []
    "T1" "U1" ["meme"] true [("T1", ⟨some [("U1", ⟨some ["meme"]⟩)]⟩)]
    (by decide) (by decide)

/-! ## C10: grants with an empty command set -/

/-- **C10.** For a non-admin user with no stored User Record (on a document
whose thread, when present, carries its `users` field, so the check does not
throw), `addPermissionToUserInThread` with an empty command list returns
`true` and persists a User Record with an empty permission list; for a user
whose record already exists (with or without a `permissions` collection) it
returns `false` and leaves the document unchanged. -/
theorem addPermission_empty_commands (registry : AdminRegistry)
    (doc : SettingsDoc) (threadID userID : String) :
    (isAdminOrOwner registry threadID userID = false →
      userAt doc threadID userID = none →
      (threadAt doc threadID = none ∨ (usersAt doc threadID).isSome = true) →
      ∃ newDoc,
        addPermissionToUserInThread registry doc threadID userID [] =
          some (true, newDoc) ∧
        permsAt newDoc threadID userID = some []) ∧
    (∀ user, userAt doc threadID userID = some user →
      addPermissionToUserInThread registry doc threadID userID [] =
        some (false, doc)) := by
  constructor
  · intro hadm hno hok
    have hchk : userHasPermission registry doc threadID userID [] = some false := by
      rw [userHasPermission_def, hadm]
      simp only [Bool.false_eq_true, if_false]
      cases hth : lookupKey doc threadID with
      | none => simp [hth]
      | some threadRecord =>
        simp only [hth]
        cases hus : threadRecord.users with
        | none =>
          exfalso
          cases hok with
          | inl h => simp [threadAt, hth] at h
          | inr h => simp [usersAt, hth, hus] at h
        | some users =>
          simp only [hus]
          cases huser : lookupKey users userID with
          | none => simp [huser]
          | some user =>
            exfalso
            simp [userAt, usersAt, hth, hus, huser] at hno
    unfold addPermissionToUserInThread
    simp only [hchk]
    refine ⟨_, rfl, ?_⟩
    simp only [permsAt, userAt, usersAt, lookupKey_setKey_self,
      Option.some_bind, Option.some.injEq]
    rw [permsDefault_eq doc threadID userID]
    have hpn : permsAt doc threadID userID = none := by
      unfold permsAt
      rw [hno]
      rfl
    rw [hpn]
    rfl
  · intro user huser0
    have hchk : userHasPermission registry doc threadID userID [] = some true := by
      rw [userHasPermission_def]
      by_cases hadm : isAdminOrOwner registry threadID userID = true
      · rw [if_pos hadm]
      · rw [if_neg hadm]
        simp only [userAt, usersAt, Option.bind_eq_some] at huser0
        obtain ⟨users, ⟨threadRecord, hth, husf⟩, huser⟩ := huser0
        simp [hth, husf, huser]
    unfold addPermissionToUserInThread
    simp only [hchk]

/-- Witness for C10: empty grant for an unknown user on the empty document,
and the no-op for a user with an existing record (here one that even lacks
its `permissions` field). -/
theorem addPermission_empty_commands_witness :
    (∃ newDoc,
      addPermissionToUserInThread (fun _ => ⟨false, [], none⟩) []
        "T1" "U1" [] = some (true, newDoc) ∧
      permsAt newDoc "T1" "U1" = some []) ∧
    (addPermissionToUserInThread (fun _ => ⟨false, [], none⟩)
        [("T1", ⟨some [("U1", ⟨none⟩)]⟩)] "T1" "U1" [] =
      some (false, [("T1", ⟨some [("U1", ⟨none⟩)]⟩)])) :=
  ⟨(addPermission_empty_commands (fun _ => ⟨false, [], none⟩) [] "T1" "U1").1
      (by decide) (by decide) (Or.inl (by decide)),
   (addPermission_empty_commands (fun _ => ⟨false, [], none⟩)
      [("T1", ⟨some [("U1", ⟨none⟩)]⟩)] "T1" "U1").2 ⟨none⟩ (by decide)⟩

/-! ## C9: the shape invariant of reachable documents -/

/-- A successful `lookupKey` means the pair is stored. -/
theorem lookupKey_mem {α : Type} (l : List (String × α)) (k : String) (v : α)
    (h : lookupKey l k = some v) : (k, v) ∈ l := by
  induction l with
  | nil => simp [lookupKey] at h
  | cons hd tl ih =>
    obtain ⟨k1, v1⟩ := hd
    simp only [lookupKey] at h
    by_cases h1 : k1 = k
    · rw [if_pos h1] at h
      injection h with h
      subst h1
      subst h
      exact List.mem_cons_self _ _
    · rw [if_neg h1] at h
      exact List.mem_cons_of_mem _ (ih h)

/-- Every pair of an assigned object is the assigned pair or an original. -/
theorem mem_setKey {α : Type} (l : List (String × α)) (k : String) (v : α)
    (p : String × α) (h : p ∈ setKey l k v) : p = (k, v) ∨ p ∈ l := by
  induction l with
  | nil =>
    simp only [setKey, List.mem_singleton] at h
    exact Or.inl h
  | cons hd tl ih =>
    obtain ⟨k1, v1⟩ := hd
    by_cases h1 : k1 = k
    · subst h1
      simp only [setKey, if_pos rfl] at h
      rcases List.mem_cons.mp h with h2 | h2
      · exact Or.inl h2
      · exact Or.inr (List.mem_cons_of_mem _ h2)
    · simp only [setKey, if_neg h1] at h
      rcases List.mem_cons.mp h with h2 | h2
      · exact Or.inr (by simp [h2])
      · rcases ih h2 with h3 | h3
        · exact Or.inl h3
        · exact Or.inr (List.mem_cons_of_mem _ h3)

/-- Every pair surviving a `delete` was stored before. -/
theorem mem_eraseKey {α : Type} (l : List (String × α)) (k : String)
    (p : String × α) (h : p ∈ eraseKey l k) : p ∈ l := by
  induction l with
  | nil => simp [eraseKey] at h
  | cons hd tl ih =>
    obtain ⟨k1, v1⟩ := hd
    by_cases h1 : k1 = k
    · subst h1
      simp only [eraseKey, if_pos rfl] at h
      exact List.mem_cons_of_mem _ h
    · simp only [eraseKey, if_neg h1] at h
      rcases List.mem_cons.mp h with h2 | h2
      · simp [h2]
      · exact List.mem_cons_of_mem _ (ih h2)

theorem mem_keys_setKey {α : Type} (l : List (String × α)) (k k2 : String)
    (v : α) : k2 ∈ (setKey l k v).map Prod.fst ↔
      k2 ∈ l.map Prod.fst ∨ k2 = k := by
  induction l with
  | nil => simp [setKey]
  | cons hd tl ih =>
    obtain ⟨k1, v1⟩ := hd
    by_cases h1 : k1 = k
    · simp only [setKey, if_pos h1, List.map_cons, List.mem_cons]
      subst h1
      tauto
    · simp only [setKey, if_neg h1, List.map_cons, List.mem_cons, ih]
      tauto

/-- JS object assignment preserves key uniqueness. -/
theorem setKey_keys_nodup {α : Type} (l : List (String × α)) (k : String)
    (v : α) (h : (l.map Prod.fst).Nodup) :
    ((setKey l k v).map Prod.fst).Nodup := by
  induction l with
  | nil => simp [setKey]
  | cons hd tl ih =>
    obtain ⟨k1, v1⟩ := hd
    simp only [List.map_cons, List.nodup_cons] at h
    by_cases h1 : k1 = k
    · simp only [setKey, if_pos h1, List.map_cons, List.nodup_cons]
      exact ⟨h.1, h.2⟩
    · simp only [setKey, if_neg h1, List.map_cons, List.nodup_cons]
      refine ⟨?_, ih h.2⟩
      rw [mem_keys_setKey]
      rintro (h2 | h2)
      · exact h.1 h2
      · exact h1 h2

theorem eraseKey_keys_sublist {α : Type} (l : List (String × α)) (k : String) :
    ((eraseKey l k).map Prod.fst).Sublist (l.map Prod.fst) := by
  induction l with
  | nil => simp [eraseKey]
  | cons hd tl ih =>
    obtain ⟨k1, v1⟩ := hd
    by_cases h1 : k1 = k
    · subst h1
      simp only [eraseKey, if_pos rfl, List.map_cons]
      exact List.sublist_cons_self _ _
    · simp only [eraseKey, if_neg h1, List.map_cons]
      exact List.Sublist.cons₂ _ ih

/-- The shape invariant maintained by the two mutations: keys are unique at
both object levels, every stored Thread Record carries a non-empty `users`
mapping and every stored User Record carries a `permissions` list. -/
def WFDoc (doc : SettingsDoc) : Prop :=
  (doc.map Prod.fst).Nodup ∧
  ∀ p ∈ doc, ∃ users, p.2.users = some users ∧ users ≠ [] ∧
    (users.map Prod.fst).Nodup ∧
    ∀ q ∈ users, ∃ perms, q.2.permissions = some perms

theorem WFDoc_nil : WFDoc [] := ⟨by simp, by simp⟩

/-- `addPermissionToUserInThread` preserves the shape invariant. -/
theorem WFDoc_add (registry : AdminRegistry) (doc : SettingsDoc)
    (threadID userID : String) (commands : List String) (b : Bool)
    (newDoc : SettingsDoc) (hwf : WFDoc doc)
    (h : addPermissionToUserInThread registry doc threadID userID commands =
      some (b, newDoc)) : WFDoc newDoc := by
  unfold addPermissionToUserInThread at h
  cases hchk : userHasPermission registry doc threadID userID commands with
  | none => simp [hchk] at h
  | some bc =>
    simp only [hchk] at h
    cases bc with
    | true =>
      injection h with h
      injection h with hb hdoc
      subst hdoc
      exact hwf
    | false =>
      injection h with h
      injection h with hb hdoc
      subst hdoc
      have husersD : ∃ usersD,
          (((lookupKey doc threadID).getD ⟨none⟩).users).getD [] = usersD ∧
          (usersD.map Prod.fst).Nodup ∧
          ∀ q ∈ usersD, ∃ perms, q.2.permissions = some perms := by
        cases hth : lookupKey doc threadID with
        | none => exact ⟨[], by simp, by simp, by simp⟩
        | some threadRecord =>
          obtain ⟨users, husf, _, hnd, hq⟩ :=
            hwf.2 _ (lookupKey_mem doc threadID threadRecord hth)
          have husf2 : threadRecord.users = some users := husf
          exact ⟨users, by simp [husf2], hnd, hq⟩
      obtain ⟨usersD, husersD, hndD, hqD⟩ := husersD
      rw [husersD]
      constructor
      · exact setKey_keys_nodup doc threadID _ hwf.1
      · intro p hp
        rcases mem_setKey doc threadID _ p hp with hpe | hpm
        · subst hpe
          refine ⟨setKey usersD userID ⟨some _⟩, rfl,
            setKey_ne_nil usersD userID _, setKey_keys_nodup usersD userID _ hndD, ?_⟩
          intro q hq
          rcases mem_setKey usersD userID _ q hq with hqe | hqm
          · subst hqe
            exact ⟨_, rfl⟩
          · exact hqD q hqm
        · exact hwf.2 p hpm

/-- `removePermissionFromUserInThread` preserves the shape invariant. -/
theorem WFDoc_remove (doc : SettingsDoc) (threadID userID : String)
    (commands : List String) (b : Bool) (newDoc : SettingsDoc)
    (hwf : WFDoc doc)
    (h : removePermissionFromUserInThread doc threadID userID commands =
      (b, newDoc)) : WFDoc newDoc := by
  unfold removePermissionFromUserInThread at h
  cases hth : lookupKey doc threadID with
  | none =>
    simp only [hth] at h
    injection h with hb hdoc
    subst hdoc
    exact hwf
  | some threadRecord =>
    simp only [hth] at h
    obtain ⟨users0, husf0x, hne0, hnd0, hq0⟩ :=
      hwf.2 _ (lookupKey_mem doc threadID threadRecord hth)
    have husf0 : threadRecord.users = some users0 := husf0x
    cases hus : threadRecord.users with
    | none => rw [hus] at husf0; exact absurd husf0 (by simp)
    | some users =>
      rw [hus] at husf0
      injection husf0 with husf0
      subst husf0
      simp only [hus] at h
      cases huser : lookupKey users userID with
      | none =>
        simp only [huser] at h
        injection h with hb hdoc
        subst hdoc
        exact hwf
      | some user =>
        simp only [huser] at h
        obtain ⟨perms0, hp0⟩ := hq0 _ (lookupKey_mem users userID user huser)
        cases hperms : user.permissions with
        | none => rw [hperms] at hp0; exact absurd hp0 (by simp)
        | some perms =>
          simp only [hperms] at h
          by_cases hlen : perms.length = 0
          · rw [if_pos hlen] at h
            injection h with hb hdoc
            subst hdoc
            exact hwf
          · rw [if_neg hlen] at h
            by_cases hnp : (perms.filter
                (fun command => !(commands.contains command))).length = 0
            · rw [if_pos hnp] at h
              by_cases hnu : (eraseKey users userID).length = 0
              · rw [if_pos hnu] at h
                simp only [ThreadRecord.fieldCount, Option.isSome_none,
                  Bool.false_eq_true, if_false, if_pos] at h
                injection h with hb hdoc
                subst hdoc
                constructor
                · exact (eraseKey_keys_sublist doc threadID).nodup hwf.1
                · intro p hp
                  exact hwf.2 p (mem_eraseKey doc threadID p hp)
              · rw [if_neg hnu] at h
                simp only [ThreadRecord.fieldCount, Option.isSome_some,
                  if_true] at h
                rw [if_neg (by simp : ¬(1 = 0))] at h
                injection h with hb hdoc
                subst hdoc
                constructor
                · exact setKey_keys_nodup doc threadID _ hwf.1
                · intro p hp
                  rcases mem_setKey doc threadID _ p hp with hpe | hpm
                  · subst hpe
                    refine ⟨eraseKey users userID, rfl,
                      by simpa using hnu,
                      (eraseKey_keys_sublist users userID).nodup hnd0, ?_⟩
                    intro q hq
                    exact hq0 q (mem_eraseKey users userID q hq)
                  · exact hwf.2 p hpm
            · rw [if_neg hnp] at h
              have hsk : ¬((setKey users userID
                  (⟨some (perms.filter (fun command =>
                    !(commands.contains command)))⟩ : UserRecord)).length = 0) := by
                simpa using setKey_ne_nil users userID _
              rw [if_neg hsk] at h
              simp only [ThreadRecord.fieldCount, Option.isSome_some,
                if_true] at h
              rw [if_neg (by simp : ¬(1 = 0))] at h
              injection h with hb hdoc
              subst hdoc
              constructor
              · exact setKey_keys_nodup doc threadID _ hwf.1
              · intro p hp
                rcases mem_setKey doc threadID _ p hp with hpe | hpm
                · subst hpe
                  refine ⟨setKey users userID ⟨some _⟩, rfl,
                    setKey_ne_nil users userID _,
                    setKey_keys_nodup users userID _ hnd0, ?_⟩
                  intro q hq
                  rcases mem_setKey users userID _ q hq with hqe | hqm
                  · subst hqe
                    exact ⟨_, rfl⟩
                  · exact hq0 q hqm
                · exact hwf.2 p hpm

/-- The documents reachable from the empty settings file by any sequence of
grant and revoke store mutations. -/
inductive ReachableDoc : SettingsDoc → Prop where
  | init : ReachableDoc []
  | add : ∀ (registry : AdminRegistry) (doc : SettingsDoc)
      (threadID userID : String) (commands : List String) (b : Bool)
      (newDoc : SettingsDoc), ReachableDoc doc →
      addPermissionToUserInThread registry doc threadID userID commands =
        some (b, newDoc) → ReachableDoc newDoc
  | remove : ∀ (doc : SettingsDoc) (threadID userID : String)
      (commands : List String) (b : Bool) (newDoc : SettingsDoc),
      ReachableDoc doc →
      removePermissionFromUserInThread doc threadID userID commands =
        (b, newDoc) → ReachableDoc newDoc

/-- On a shape-invariant document the permission check never dereferences an
absent `users` or `permissions` field (never throws). -/
theorem userHasPermission_isSome (registry : AdminRegistry) (doc : SettingsDoc)
    (threadID userID : String) (commands : List String) (hwf : WFDoc doc) :
    (userHasPermission registry doc threadID userID commands).isSome = true := by
  rw [userHasPermission_def]
  by_cases hadm : isAdminOrOwner registry threadID userID = true
  · rw [if_pos hadm]
    rfl
  · rw [if_neg hadm]
    cases hth : lookupKey doc threadID with
    | none => rfl
    | some threadRecord =>
      obtain ⟨users, husfx, _, _, hq⟩ :=
        hwf.2 _ (lookupKey_mem doc threadID threadRecord hth)
      have husf : threadRecord.users = some users := husfx
      simp only [husf]
      cases huser : lookupKey users userID with
      | none => rfl
      | some user =>
        obtain ⟨perms, hpx⟩ := hq _ (lookupKey_mem users userID user huser)
        have hp : user.permissions = some perms := hpx
        cases commands with
        | nil => simp [huser]
        | cons c cs => simp [huser, hp]

/-- **C9.** Every document reachable from the empty document by
`addPermissionToUserInThread` / `removePermissionFromUserInThread` satisfies
the shape invariant (each stored Thread Record has a non-empty `users`
mapping, each stored User Record has a `permissions` list), so
`userHasPermission`'s unguarded accesses never hit an absent field. -/
theorem reachableDoc_wf (doc : SettingsDoc) (h : ReachableDoc doc) :
    WFDoc doc ∧ ∀ registry threadID userID commands,
      (userHasPermission registry doc threadID userID commands).isSome = true := by
  have hwf : WFDoc doc := by
    induction h with
    | init => exact WFDoc_nil
    | add registry doc2 threadID userID commands b newDoc hr hstep ih =>
      exact WFDoc_add registry doc2 threadID userID commands b newDoc ih hstep
    | remove doc2 threadID userID commands b newDoc hr hstep ih =>
      exact WFDoc_remove doc2 threadID userID commands b newDoc ih hstep
  exact ⟨hwf, fun registry threadID userID commands =>
    userHasPermission_isSome registry doc threadID userID commands hwf⟩

/-- Witness for C9 on the document reached by one grant from the empty
document. -/
theorem reachableDoc_wf_witness :
    WFDoc [("T1", ⟨some [("U1", ⟨some ["meme"]⟩)]⟩)] ∧
    (userHasPermission (fun _ => ⟨false, [], none⟩)
      [("T1", ⟨some [("U1", ⟨some ["meme"]⟩)]⟩)] "T2" "U2"
      ["kick"]).isSome = true := by
  have hreach : ReachableDoc [("T1", ⟨some [("U1", ⟨some ["meme"]⟩)]⟩)] :=
    ReachableDoc.add (fun _ => ⟨false, [], none⟩) [] "T1" "U1" ["meme"] true _
      ReachableDoc.init (by decide)
  exact ⟨(reachableDoc_wf _ hreach).1,
    (reachableDoc_wf _ hreach).2 (fun _ => ⟨false, [], none⟩) "T2" "U2" ["kick"]⟩

/-! ## The `PermissionCommand` grant/revoke handler -/

/-- The registered-command metadata consulted by the handler
(`SnoopBotCommandOptions`, restricted to the fields the handler reads:
`command.name!` and `command.adminOnly`). -/
structure CommandOptions where
  name : String
  adminOnly : Bool
deriving DecidableEq, Repr

/-- One entry of `threadInfo.userInfo` from the messaging collaborator. -/
structure UserInfo where
  id : String
  name : String
deriving DecidableEq, Repr

/-- The answer of `api.getThreadInfo` (external messaging collaborator). -/
structure ThreadInfo where
  participantIDs : List String
  userInfo : List UserInfo
deriving DecidableEq, Repr

/-- JS whitespace as stripped by `String.prototype.trim` (the characters
that can occur here: space, tab, line feed, carriage return, vertical tab,
form feed). -/
def jsWhitespace (c : Char) : Bool :=
  c = ' ' || c = '\t' || c = '\n' || c = '\r' ||
  c = Char.ofNat 11 || c = Char.ofNat 12

/-- JS `s.trim()`: strip leading and trailing whitespace. -/
def jsTrim (s : String) : String :=
  ⟨(((s.data.dropWhile jsWhitespace).reverse.dropWhile jsWhitespace).reverse)⟩

/-- JS `s.split(',')` on the character list. -/
def jsSplitCommaAux : List Char → List Char → List String
  | [], acc => [⟨acc.reverse⟩]
  | c :: rest, acc =>
    if c = ',' then ⟨acc.reverse⟩ :: jsSplitCommaAux rest []
    else jsSplitCommaAux rest (c :: acc)

/-- JS `s.split(',')`. -/
def jsSplitComma (s : String) : List String :=
  jsSplitCommaAux s.data []

/-- Does `pattern` start the character list? -/
def startsWithChars : List Char → List Char → Bool
  | [], _ => true
  | _ :: _, [] => false
  | p :: ps, c :: cs => p == c && startsWithChars ps cs

/-- Does `pattern` occur anywhere in the character list? -/
def containsSeq (pattern : List Char) : List Char → Bool
  | [] => pattern.isEmpty
  | c :: rest => startsWithChars pattern (c :: rest) || containsSeq pattern rest

/-- `execute`: `(matches[2] as string).trim().split(',')` — the whole matched
argument is trimmed once, then split on commas; the entries themselves keep
any inner surrounding whitespace. -/
def parseCommandList (m2 : String) : List String :=
  jsSplitComma (jsTrim m2)

/-- `if(commandsToGive[0] === "all") commandsToGive = commands.map(name)`. -/
def expandAllCommands (commandsToGive : List String)
    (commands : List CommandOptions) : List String :=
  if commandsToGive.head? = some "all" then commands.map (·.name)
  else commandsToGive

/-- `commands.some((command) => commandsToGive.includes(command.name!))`. -/
def hasCommandsCheck (commands : List CommandOptions)
    (commandsToGive : List String) : Bool :=
  commands.any (fun command => commandsToGive.contains command.name)

/-- `commands.filter((command) => command.adminOnly).map((command) =>
command.name!)`. -/
def adminCommandNames (commands : List CommandOptions) : List String :=
  (commands.filter (·.adminOnly)).map (·.name)

/-- `commandsToGive.filter((command) => !adminCommands.includes(command))
.map((command) => command.trim())` — note the per-entry trim happens after
the admin-only filter. -/
def applyAdminFilterAndTrim (commandsToGive : List String)
    (commands : List CommandOptions) : List String :=
  (commandsToGive.filter
    (fun command => !((adminCommandNames commands).contains command))).map
    (fun command => jsTrim command)

/-- `matches[0].indexOf("@all") === -1` is false, i.e. the raw matched text
contains the substring. -/
def jsContainsSub (s sub : String) : Bool :=
  containsSeq sub.data s.data

/-- The `for(let uinfo of threadInfo.userInfo) if (uinfo.id === participantID)`
search; `none` when no entry matches (the JS local stays `undefined`). -/
def findUserInfo (userInfoList : List UserInfo) (participantID : String) :
    Option UserInfo :=
  match userInfoList with
  | [] => none
  | uinfo :: rest =>
    if uinfo.id = participantID then some uinfo
    else findUserInfo rest participantID

/-- The `participantIDs.forEach` loop populating `persons`; `none` is the JS
`TypeError` on `userInfo.id` when a participant has no user-info entry. -/
def expandPersonsAux (userInfoList : List UserInfo)
    (persons : List (String × String)) : List String →
    Option (List (String × String))
  | [] => some persons
  | participantID :: rest =>
    match findUserInfo userInfoList participantID with
    | none => none
    | some uinfo =>
      expandPersonsAux userInfoList
        (setKey persons uinfo.id ("@" ++ uinfo.name)) rest

def expandPersons (persons : List (String × String))
    (threadInfo : ThreadInfo) : Option (List (String × String)) :=
  expandPersonsAux threadInfo.userInfo persons threadInfo.participantIDs

/-- The `for(let key in persons)` mutation loop of `grant`: one
`addPermissionToUserInThread` per target user, threading the persisted
document (each call reloads what the previous call saved). -/
def grantLoop (registry : AdminRegistry) (doc : SettingsDoc)
    (threadID : String) (commandsToGive : List String)
    (persons : List (String × String)) : Option SettingsDoc :=
  persons.foldl
    (fun acc p => acc.bind (fun d =>
      (addPermissionToUserInThread registry d threadID p.1
        commandsToGive).map Prod.snd))
    (some doc)

/-- The `for(let key in persons)` mutation loop of `revoke`. -/
def revokeLoop (doc : SettingsDoc) (threadID : String)
    (commandsToRevoke : List String) (persons : List (String × String)) :
    SettingsDoc :=
  persons.foldl
    (fun d p => (removePermissionFromUserInThread d threadID p.1
      commandsToRevoke).2)
    doc

/-- The `msg` accumulation: header, then each tag followed by a space, with
the final character dropped (`msg.substring(0, msg.length - 1)`). -/
def personsTagLine (header : String) (persons : List (String × String)) :
    String :=
  (persons.foldl (fun m p => m ++ p.2 ++ " ") header).dropRight 1

/-- `PermissionCommand.grant`, embedded over the store document and the
external collaborators (`registry`, `threadInfo`).  The result is the list
of messages sent through `api.sendMessage` (bodies only) paired with the
document as left in the store; `none` is an exception escaping to the
caller. -/
def grant (registry : AdminRegistry) (doc : SettingsDoc)
    (matches0 threadID : String) (threadInfo : ThreadInfo)
    (commandsToGive0 : List String) (commands : List CommandOptions)
    (persons0 : List (String × String)) :
    Option (List String × SettingsDoc) :=
  let commandsToGive := expandAllCommands commandsToGive0 commands
  if persons0.length = 0 ∧ jsContainsSub matches0 "@all" = false then
    some (["⚠️No person is being granted permission(s), please type @all or @person."],
      doc)
  else
    let personsOpt :=
      if persons0.length = 0 then expandPersons persons0 threadInfo
      else some persons0
    match personsOpt with
    | none => none
    | some persons =>
      if hasCommandsCheck commands commandsToGive = false then
        some (["⚠️ Unknown command(s): '" ++
          String.intercalate "," commandsToGive ++ "'."], doc)
      else
        let commandsToApply := applyAdminFilterAndTrim commandsToGive commands
        match grantLoop registry doc threadID commandsToApply persons with
        | none => none
        | some newDoc =>
          some ([personsTagLine "🤖Gave permission to: \n\n" persons ++
            "\n\nFor command(s): \n\n'" ++
            String.intercalate ", " commandsToApply ++ "'."], newDoc)

/-- `PermissionCommand.revoke`, embedded like `grant`. -/
def revoke (registry : AdminRegistry) (doc : SettingsDoc)
    (matches0 threadID : String) (threadInfo : ThreadInfo)
    (commandsToRevoke0 : List String) (commands : List CommandOptions)
    (persons0 : List (String × String)) :
    Option (List String × SettingsDoc) :=
  let commandsToRevoke := expandAllCommands commandsToRevoke0 commands
  if persons0.length = 0 ∧ jsContainsSub matches0 "@all" = false then
    some (["⚠️No person is being revoked of permission(s), please type @all or @person."],
      doc)
  else
    let personsOpt :=
      if persons0.length = 0 then expandPersons persons0 threadInfo
      else some persons0
    match personsOpt with
    | none => none
    | some persons =>
      if hasCommandsCheck commands commandsToRevoke = false then
        some (["⚠️Unknown command(s): '" ++
          String.intercalate "," commandsToRevoke ++ "'."], doc)
      else
        let commandsToApply := applyAdminFilterAndTrim commandsToRevoke commands
        let newDoc := revokeLoop doc threadID commandsToApply persons
        some ([personsTagLine "🤖Revoked permission to: \n\n" persons ++
          "\n\nFor command(s): \n\n'" ++
          String.intercalate ", " commandsToApply ++ "'."], newDoc)

/-- The command set a `grant`/`revoke` invocation actually applies to the
store for a message argument `m2`: `execute`'s split, the `all` expansion,
then the admin-only filter followed by the per-entry trim. -/
def appliedCommandSet (m2 : String) (commands : List CommandOptions) :
    List String :=
  applyAdminFilterAndTrim (expandAllCommands (parseCommandList m2) commands)
    commands

/-! ## C5: resolution of the target command set -/

/-- The target-command resolution as the claim words it: `all` expands to
every registered name, otherwise the comma-separated list with each entry
trimmed of surrounding whitespace, and registered admin-only commands
dropped from the applied set (trimming before the admin-only filter). -/
def claimedAppliedCommandSet (m2 : String) (commands : List CommandOptions) :
    List String :=
  let cs :=
    if (parseCommandList m2).head? = some "all" then commands.map (·.name)
    else (parseCommandList m2).map (fun entry => jsTrim entry)
  cs.filter (fun c => !((adminCommandNames commands).contains c))

/-- **C5, counterexample.** With registered commands `ping` and the
admin-only `kick`, the message argument `"ping, kick"` resolves (per the
code) to the applied set `["ping", "kick"]`: the entry `" kick"` is compared
against the admin-only names before being trimmed, so the registered
admin-only command `kick` is *not* dropped from the set actually applied,
against the claim (which predicts `["ping"]`). -/
theorem appliedCommandSet_counterexample :
    adminCommandNames [⟨"ping", false⟩, ⟨"kick", true⟩] = ["kick"] ∧
    appliedCommandSet "ping, kick" [⟨"ping", false⟩, ⟨"kick", true⟩] =
      ["ping", "kick"] ∧
    "kick" ∈ appliedCommandSet "ping, kick" [⟨"ping", false⟩, ⟨"kick", true⟩] ∧
    claimedAppliedCommandSet "ping, kick" [⟨"ping", false⟩, ⟨"kick", true⟩] =
      ["ping"] := by
  decide

theorem map_trim_id (l : List String) (h : ∀ x ∈ l, jsTrim x = x) :
    l.map (fun x => jsTrim x) = l := by
  induction l with
  | nil => rfl
  | cons hd tl ih =>
    simp only [List.map_cons, List.cons.injEq]
    exact ⟨h hd (by simp), ih (fun x hx => h x (by simp [hx]))⟩

/-- **C5, amended.** The handler resolves the target set as the claim says
*except for the placement of the per-entry trim*: the literal token `all`
(as first entry) expands to every registered command name, otherwise the set
is the comma-separated split of the whole-trimmed argument; registry
validation and the admin-only filter compare the *untrimmed* entries and
each surviving entry is trimmed only afterwards.  Consequently the claimed
resolution holds exactly when every split entry already carries no
surrounding whitespace (and registered names are trim-free). -/
theorem appliedCommandSet_amended (m2 : String)
    (commands : List CommandOptions)
    (hentries : ∀ entry ∈ parseCommandList m2, jsTrim entry = entry)
    (hnames : ∀ command ∈ commands, jsTrim command.name = command.name) :
    appliedCommandSet m2 commands = claimedAppliedCommandSet m2 commands := by
  unfold appliedCommandSet claimedAppliedCommandSet applyAdminFilterAndTrim
    expandAllCommands
  by_cases hall : (parseCommandList m2).head? = some "all"
  · rw [if_pos hall, if_pos hall]
    apply map_trim_id
    intro x hx
    rw [List.mem_filter] at hx
    obtain ⟨command, hcmd, hname⟩ := List.mem_map.mp hx.1
    subst hname
    exact hnames command hcmd
  · rw [if_neg hall, if_neg hall]
    rw [map_trim_id (parseCommandList m2) hentries]
    apply map_trim_id
    intro x hx
    rw [List.mem_filter] at hx
    exact hentries x hx.1

/-- Witness for C5's amended statement: whitespace-free entries. -/
theorem appliedCommandSet_amended_witness :
    appliedCommandSet "ping,kick" [⟨"ping", false⟩, ⟨"kick", true⟩] =
      claimedAppliedCommandSet "ping,kick" [⟨"ping", false⟩, ⟨"kick", true⟩] :=
  appliedCommandSet_amended "ping,kick" [⟨"ping", false⟩, ⟨"kick", true⟩]
    (by decide) (by decide)

/-! ## C6: aborted grant/revoke invocations -/

theorem expandPersonsAux_isSome (userInfoList : List UserInfo)
    (persons : List (String × String)) (l : List String)
    (h : ∀ p ∈ l, (findUserInfo userInfoList p).isSome = true) :
    ∃ ps, expandPersonsAux userInfoList persons l = some ps := by
  induction l generalizing persons with
  | nil => exact ⟨persons, rfl⟩
  | cons hd tl ih =>
    have hh := h hd (by simp)
    cases hfind : findUserInfo userInfoList hd with
    | none =>
      rw [hfind] at hh
      simp at hh
    | some uinfo =>
      simp only [expandPersonsAux, hfind]
      exact ih _ (fun p hp => h p (by simp [hp]))

/-- **C6.** A grant or revoke invocation that carries no mentions and whose
raw text lacks `@all`, or whose requested command names match no registered
command (given targets resolve: mentions present, or every thread
participant has a user-info entry), sends exactly one warning message,
leaves the stored document unchanged, and raises no exception. -/
theorem grant_revoke_abort (registry : AdminRegistry) (doc : SettingsDoc)
    (matches0 threadID : String) (threadInfo : ThreadInfo)
    (commandsToGive0 : List String) (commands : List CommandOptions)
    (persons0 : List (String × String))
    (habort : (persons0.length = 0 ∧ jsContainsSub matches0 "@all" = false) ∨
      (hasCommandsCheck commands
          (expandAllCommands commandsToGive0 commands) = false ∧
        (persons0.length ≠ 0 ∨
          ∀ p ∈ threadInfo.participantIDs,
            (findUserInfo threadInfo.userInfo p).isSome = true))) :
    (∃ msg, grant registry doc matches0 threadID threadInfo commandsToGive0
      commands persons0 = some ([msg], doc)) ∧
    (∃ msg, revoke registry doc matches0 threadID threadInfo commandsToGive0
      commands persons0 = some ([msg], doc)) := by
  constructor
  · by_cases hcase : persons0.length = 0 ∧ jsContainsSub matches0 "@all" = false
    · simp only [grant, if_pos hcase]
      exact ⟨_, rfl⟩
    · rcases habort with h1 | ⟨hno, hexp⟩
      · exact absurd h1 hcase
      · simp only [grant, if_neg hcase]
        by_cases hpe : persons0.length = 0
        · rcases hexp with hne | hwfexp
          · exact absurd hpe hne
          · obtain ⟨ps, hps⟩ := expandPersonsAux_isSome threadInfo.userInfo
              persons0 threadInfo.participantIDs hwfexp
            simp only [if_pos hpe, expandPersons, hps, if_pos hno]
            exact ⟨_, rfl⟩
        · simp only [if_neg hpe, if_pos hno]
          exact ⟨_, rfl⟩
  · by_cases hcase : persons0.length = 0 ∧ jsContainsSub matches0 "@all" = false
    · simp only [revoke, if_pos hcase]
      exact ⟨_, rfl⟩
    · rcases habort with h1 | ⟨hno, hexp⟩
      · exact absurd h1 hcase
      · simp only [revoke, if_neg hcase]
        by_cases hpe : persons0.length = 0
        · rcases hexp with hne | hwfexp
          · exact absurd hpe hne
          · obtain ⟨ps, hps⟩ := expandPersonsAux_isSome threadInfo.userInfo
              persons0 threadInfo.participantIDs hwfexp
            simp only [if_pos hpe, expandPersons, hps, if_pos hno]
            exact ⟨_, rfl⟩
        · simp only [if_neg hpe, if_pos hno]
          exact ⟨_, rfl⟩

/-- Witness for C6: no mentions and no `@all` in the raw text. -/
theorem grant_revoke_abort_witness :
    (∃ msg, grant (fun _ => ⟨false, [], none⟩) [] "permission grant meme" "T1"
      ⟨[], []⟩ ["meme"] [⟨"meme", false⟩] [] = some ([msg], [])) ∧
    (∃ msg, revoke (fun _ => ⟨false, [], none⟩) [] "permission grant meme" "T1"
      ⟨[], []⟩ ["meme"] [⟨"meme", false⟩] [] = some ([msg], [])) :=
  grant_revoke_abort (fun _ => ⟨false, [], none⟩) [] "permission grant meme"
    "T1" ⟨[], []⟩ ["meme"] [⟨"meme", false⟩] [] (Or.inl (by decide))

/-! ## C8: the durable settings artifact

`getPermissionSettings` reads the file and `JSON.parse`s it (an empty file
is read as `"{}"`); `savePermissionSettings` writes
`JSON.stringify(doc, undefined, 4)`.  The serializer and the deserializer
are embedded for the settings schema (objects of objects of objects of
string arrays), including JSON string escaping and the 4-space pretty
indentation, and the artifact is the `String` content of the file. -/

def lbrace : Char := Char.ofNat 123

def rbrace : Char := Char.ofNat 125

/-- `4 * n`-less indentation: `n` spaces. -/
def pad (n : Nat) : List Char := List.replicate n ' '

def hexDigit (n : Nat) : Char :=
  if n < 10 then Char.ofNat (48 + n) else Char.ofNat (87 + n)

/-- The escaping `JSON.stringify` applies inside string literals: quote,
backslash, the named control escapes, and `\u00xx` for the remaining
control characters. -/
def escapeChar (c : Char) : List Char :=
  if c = '"' then ['\\', '"']
  else if c = '\\' then ['\\', '\\']
  else if c = Char.ofNat 8 then ['\\', 'b']
  else if c = '\t' then ['\\', 't']
  else if c = '\n' then ['\\', 'n']
  else if c = Char.ofNat 12 then ['\\', 'f']
  else if c = '\r' then ['\\', 'r']
  else if c.toNat < 32 then
    ['\\', 'u', '0', '0', hexDigit (c.toNat / 16), hexDigit (c.toNat % 16)]
  else [c]

def escapeList (cs : List Char) : List Char :=
  cs.foldr (fun c acc => escapeChar c ++ acc) []

/-- A JSON string literal as `JSON.stringify` prints it. -/
def printStringLit (s : String) : List Char :=
  '"' :: (escapeList s.data ++ ['"'])

/-- Hexadecimal digit value accepted by `JSON.parse`'s `\uXXXX`. -/
def hexVal (c : Char) : Option Nat :=
  if '0' ≤ c ∧ c ≤ '9' then some (c.toNat - 48)
  else if 'a' ≤ c ∧ c ≤ 'f' then some (c.toNat - 87)
  else if 'A' ≤ c ∧ c ≤ 'F' then some (c.toNat - 55)
  else none

/-- The body of a JSON string literal (after the opening quote): unescapes
until the closing quote, returning the decoded characters and the rest. -/
def parseStringBody : List Char → Option (List Char × List Char)
  | [] => none
  | c :: rest =>
    if c = '"' then some ([], rest)
    else if c = '\\' then
      match rest with
      | [] => none
      | e :: r =>
        if e = '"' then
          (parseStringBody r).map (fun p => ('"' :: p.1, p.2))
        else if e = '\\' then
          (parseStringBody r).map (fun p => ('\\' :: p.1, p.2))
        else if e = '/' then
          (parseStringBody r).map (fun p => ('/' :: p.1, p.2))
        else if e = 'b' then
          (parseStringBody r).map (fun p => (Char.ofNat 8 :: p.1, p.2))
        else if e = 't' then
          (parseStringBody r).map (fun p => ('\t' :: p.1, p.2))
        else if e = 'n' then
          (parseStringBody r).map (fun p => ('\n' :: p.1, p.2))
        else if e = 'f' then
          (parseStringBody r).map (fun p => (Char.ofNat 12 :: p.1, p.2))
        else if e = 'r' then
          (parseStringBody r).map (fun p => ('\r' :: p.1, p.2))
        else if e = 'u' then
          match r with
          | h1 :: h2 :: h3 :: h4 :: r2 =>
            match hexVal h1, hexVal h2, hexVal h3, hexVal h4 with
            | some a, some b, some c2, some d =>
              (parseStringBody r2).map (fun p =>
                (Char.ofNat (4096 * a + 256 * b + 16 * c2 + d) :: p.1, p.2))
            | _, _, _, _ => none
          | _ => none
        else none
    else (parseStringBody rest).map (fun p => (c :: p.1, p.2))

/-- JSON insignificant whitespace. -/
def jsonWs (c : Char) : Bool :=
  c = ' ' || c = '\n' || c = '\t' || c = '\r'

def skipWs (l : List Char) : List Char := l.dropWhile jsonWs

/-- A JSON string literal token (leading whitespace allowed). -/
def parseStringLit (l : List Char) : Option (String × List Char) :=
  match skipWs l with
  | [] => none
  | c :: rest =>
    if c = '"' then (parseStringBody rest).map (fun p => (⟨p.1⟩, p.2))
    else none

theorem hexVal_hexDigit : ∀ n < 16, hexVal (hexDigit n) = some n := by decide

theorem skipWs_cons_of_not_ws (c : Char) (l : List Char)
    (h : jsonWs c = false) : skipWs (c :: l) = c :: l := by
  simp [skipWs, List.dropWhile_cons, h]

theorem skipWs_newline (l : List Char) : skipWs ('\n' :: l) = skipWs l := by
  simp [skipWs, List.dropWhile_cons, jsonWs]

theorem skipWs_pad (n : Nat) (l : List Char) :
    skipWs (pad n ++ l) = skipWs l := by
  induction n with
  | zero => simp [pad]
  | succ n ih =>
    simp only [pad, List.replicate_succ, List.cons_append]
    rw [show skipWs (' ' :: (List.replicate n ' ' ++ l)) =
      skipWs (List.replicate n ' ' ++ l) by
        simp [skipWs, List.dropWhile_cons, jsonWs]]
    exact ih

/-- The `\u00xx` escape parses back to the encoded character. -/
theorem parseStringBody_unicode (d1 d2 : Char) (a b : Nat) (tail : List Char)
    (hd1 : hexVal d1 = some a) (hd2 : hexVal d2 = some b) :
    parseStringBody ('\\' :: 'u' :: '0' :: '0' :: d1 :: d2 :: tail) =
      (parseStringBody tail).map (fun p =>
        (Char.ofNat (16 * a + b) :: p.1, p.2)) := by
  rw [parseStringBody.eq_def]
  show (match hexVal '0', hexVal '0', hexVal d1, hexVal d2 with
    | some a2, some b2, some c2, some d =>
      (parseStringBody tail).map (fun p =>
        (Char.ofNat (4096 * a2 + 256 * b2 + 16 * c2 + d) :: p.1, p.2))
    | _, _, _, _ => none) =
    (parseStringBody tail).map (fun p => (Char.ofNat (16 * a + b) :: p.1, p.2))
  rw [hd1, hd2, show hexVal '0' = some 0 from by decide]
  have harith : ∀ x y : Nat, 4096 * 0 + 256 * 0 + 16 * x + y = 16 * x + y := by
    omega
  simp only [harith]

/-- Unescaping inverts escaping, one character at a time. -/
theorem parseStringBody_escapeChar (c : Char) (tail : List Char) :
    parseStringBody (escapeChar c ++ tail) =
      (parseStringBody tail).map (fun p => (c :: p.1, p.2)) := by
  by_cases h1 : c = '"'
  · subst h1
    rw [show escapeChar '"' = ['\\', '"'] from by decide,
      parseStringBody.eq_def]
    rfl
  · by_cases h2 : c = '\\'
    · subst h2
      rw [show escapeChar '\\' = ['\\', '\\'] from by decide,
        parseStringBody.eq_def]
      rfl
    · by_cases h3 : c = Char.ofNat 8
      · subst h3
        rw [show escapeChar (Char.ofNat 8) = ['\\', 'b'] from by decide,
          parseStringBody.eq_def]
        rfl
      · by_cases h4 : c = '\t'
        · subst h4
          rw [show escapeChar '\t' = ['\\', 't'] from by decide,
            parseStringBody.eq_def]
          rfl
        · by_cases h5 : c = '\n'
          · subst h5
            rw [show escapeChar '\n' = ['\\', 'n'] from by decide,
              parseStringBody.eq_def]
            rfl
          · by_cases h6 : c = Char.ofNat 12
            · subst h6
              rw [show escapeChar (Char.ofNat 12) = ['\\', 'f'] from by decide,
                parseStringBody.eq_def]
              rfl
            · by_cases h7 : c = '\r'
              · subst h7
                rw [show escapeChar '\r' = ['\\', 'r'] from by decide,
                  parseStringBody.eq_def]
                rfl
              · by_cases h8 : c.toNat < 32
                · have hesc : escapeChar c = ['\\', 'u', '0', '0',
                      hexDigit (c.toNat / 16), hexDigit (c.toNat % 16)] := by
                    unfold escapeChar
                    rw [if_neg h1, if_neg h2, if_neg h3, if_neg h4, if_neg h5,
                      if_neg h6, if_neg h7, if_pos h8]
                  rw [hesc]
                  have hdiv : c.toNat / 16 < 16 := by omega
                  have hmod : c.toNat % 16 < 16 := Nat.mod_lt _ (by omega)
                  rw [show ['\\', 'u', '0', '0', hexDigit (c.toNat / 16),
                      hexDigit (c.toNat % 16)] ++ tail =
                    '\\' :: 'u' :: '0' :: '0' :: hexDigit (c.toNat / 16) ::
                      hexDigit (c.toNat % 16) :: tail from rfl]
                  rw [parseStringBody_unicode _ _ _ _ tail
                    (hexVal_hexDigit _ hdiv) (hexVal_hexDigit _ hmod)]
                  have harith : 16 * (c.toNat / 16) + c.toNat % 16 = c.toNat := by
                    omega
                  simp only [harith, Char.ofNat_toNat]
                · have hesc : escapeChar c = [c] := by
                    unfold escapeChar
                    rw [if_neg h1, if_neg h2, if_neg h3, if_neg h4, if_neg h5,
                      if_neg h6, if_neg h7, if_neg h8]
                  rw [hesc, show [c] ++ tail = c :: tail from rfl,
                    parseStringBody.eq_def]
                  simp only [if_neg h1, if_neg h2]

/-- Unescaping inverts escaping on whole strings. -/
theorem parseStringBody_escapeList (cs : List Char) (rest : List Char) :
    parseStringBody (escapeList cs ++ '"' :: rest) = some (cs, rest) := by
  induction cs with
  | nil =>
    rw [show escapeList [] ++ '"' :: rest = '"' :: rest from rfl,
      parseStringBody.eq_def]
    rfl
  | cons hd tl ih =>
    have : escapeList (hd :: tl) = escapeChar hd ++ escapeList tl := by
      simp [escapeList]
    rw [this, List.append_assoc, parseStringBody_escapeChar, ih]
    rfl

theorem string_mk_data (s : String) : (⟨s.data⟩ : String) = s := by
  obtain ⟨d⟩ := s
  rfl

/-- Parsing inverts printing for string literals. -/
theorem parseStringLit_printStringLit (s : String) (rest : List Char) :
    parseStringLit (printStringLit s ++ rest) = some (s, rest) := by
  unfold printStringLit parseStringLit
  rw [List.cons_append, skipWs_cons_of_not_ws '"' _ (by decide)]
  show (if '"' = '"' then
    (parseStringBody (escapeList s.data ++ ['"'] ++ rest)).map
      (fun p => ((⟨p.1⟩ : String), p.2))
    else none) = some (s, rest)
  rw [if_pos rfl, List.append_assoc,
    show (['"'] : List Char) ++ rest = '"' :: rest from rfl,
    parseStringBody_escapeList]
  simp [string_mk_data]

/-! Generic printer/parser for the pretty-printed objects and string arrays
of `JSON.stringify(_, undefined, 4)`. -/

def printObjTail {α : Type} (indent : Nat) (printVal : Nat → α → List Char) :
    List (String × α) → List Char
  | [] => []
  | (k, v) :: rest =>
    ',' :: '\n' :: (pad (indent + 4) ++ printStringLit k ++ ':' :: ' ' ::
      (printVal (indent + 4) v ++ printObjTail indent printVal rest))

def printObj {α : Type} (indent : Nat) (printVal : Nat → α → List Char)
    (entries : List (String × α)) : List Char :=
  match entries with
  | [] => [lbrace, rbrace]
  | (k, v) :: rest =>
    lbrace :: '\n' :: (pad (indent + 4) ++ printStringLit k ++ ':' :: ' ' ::
      (printVal (indent + 4) v ++ printObjTail indent printVal rest ++
        '\n' :: (pad indent ++ [rbrace])))

def printStrArrayTail (indent : Nat) : List String → List Char
  | [] => []
  | s :: rest =>
    ',' :: '\n' :: (pad (indent + 4) ++ printStringLit s ++
      printStrArrayTail indent rest)

def printStrArray (indent : Nat) (elems : List String) : List Char :=
  match elems with
  | [] => ['[', ']']
  | s :: rest =>
    '[' :: '\n' :: (pad (indent + 4) ++ printStringLit s ++
      (printStrArrayTail indent rest ++ '\n' :: (pad indent ++ [']'])))

def parseStrArrayTail : Nat → List Char → Option (List String × List Char)
  | 0, _ => none
  | fuel + 1, l =>
    match skipWs l with
    | [] => none
    | c :: rest =>
      if c = ']' then some ([], rest)
      else if c = ',' then
        match parseStringLit rest with
        | none => none
        | some (s, r2) =>
          match parseStrArrayTail fuel r2 with
          | none => none
          | some (ss, r3) => some (s :: ss, r3)
      else none

def parseStrArray (fuel : Nat) (l : List Char) :
    Option (List String × List Char) :=
  match skipWs l with
  | [] => none
  | c :: rest =>
    if c = '[' then
      match skipWs rest with
      | [] => none
      | c2 :: r2 =>
        if c2 = ']' then some ([], r2)
        else
          match parseStringLit (c2 :: r2) with
          | none => none
          | some (s, r3) =>
            match parseStrArrayTail fuel r3 with
            | none => none
            | some (ss, r4) => some (s :: ss, r4)
    else none

def parseObjTail {α : Type} (parseVal : List Char → Option (α × List Char)) :
    Nat → List Char → Option (List (String × α) × List Char)
  | 0, _ => none
  | fuel + 1, l =>
    match skipWs l with
    | [] => none
    | c :: rest =>
      if c = rbrace then some ([], rest)
      else if c = ',' then
        match parseStringLit rest with
        | none => none
        | some (k, r2) =>
          match skipWs r2 with
          | [] => none
          | c2 :: r3 =>
            if c2 = ':' then
              match parseVal r3 with
              | none => none
              | some (v, r4) =>
                match parseObjTail parseVal fuel r4 with
                | none => none
                | some (entries, r5) => some ((k, v) :: entries, r5)
            else none
      else none

def parseObj {α : Type} (parseVal : List Char → Option (α × List Char))
    (fuel : Nat) (l : List Char) :
    Option (List (String × α) × List Char) :=
  match skipWs l with
  | [] => none
  | c :: rest =>
    if c = lbrace then
      match skipWs rest with
      | [] => none
      | c2 :: r2 =>
        if c2 = rbrace then some ([], r2)
        else
          match parseStringLit (c2 :: r2) with
          | none => none
          | some (k, r3) =>
            match skipWs r3 with
            | [] => none
            | c3 :: r4 =>
              if c3 = ':' then
                match parseVal r4 with
                | none => none
                | some (v, r5) =>
                  match parseObjTail parseVal fuel r5 with
                  | none => none
                  | some (entries, r6) => some ((k, v) :: entries, r6)
              else none
    else none

theorem parseStringLit_nl_pad (n : Nat) (l : List Char) :
    parseStringLit ('\n' :: (pad n ++ l)) = parseStringLit l := by
  unfold parseStringLit
  rw [skipWs_newline, skipWs_pad]

/-- Parsing inverts printing for the tail of a string array. -/
theorem parseStrArrayTail_rt (indent : Nat) (ss : List String) :
    ∀ (fuel : Nat) (rest : List Char), ss.length < fuel →
    parseStrArrayTail fuel (printStrArrayTail indent ss ++
      '\n' :: (pad indent ++ ']' :: rest)) = some (ss, rest) := by
  induction ss with
  | nil =>
    intro fuel rest hf
    cases fuel with
    | zero => omega
    | succ f =>
      rw [show printStrArrayTail indent [] ++
        '\n' :: (pad indent ++ ']' :: rest) =
        '\n' :: (pad indent ++ ']' :: rest) from rfl]
      unfold parseStrArrayTail
      rw [skipWs_newline, skipWs_pad, skipWs_cons_of_not_ws ']' _ (by decide)]
      simp
  | cons s ss ih =>
    intro fuel rest hf
    cases fuel with
    | zero => omega
    | succ f =>
      have hshape : printStrArrayTail indent (s :: ss) ++
          '\n' :: (pad indent ++ ']' :: rest) =
          ',' :: '\n' :: (pad (indent + 4) ++ (printStringLit s ++
            (printStrArrayTail indent ss ++
              '\n' :: (pad indent ++ ']' :: rest)))) := by
        show (',' :: '\n' :: (pad (indent + 4) ++ printStringLit s ++
          printStrArrayTail indent ss)) ++
          '\n' :: (pad indent ++ ']' :: rest) = _
        simp [List.append_assoc]
      rw [hshape]
      unfold parseStrArrayTail
      have hskip : skipWs (',' :: '\n' :: (pad (indent + 4) ++
          (printStringLit s ++ (printStrArrayTail indent ss ++
            '\n' :: (pad indent ++ ']' :: rest))))) =
          ',' :: ('\n' :: (pad (indent + 4) ++ (printStringLit s ++
            (printStrArrayTail indent ss ++
              '\n' :: (pad indent ++ ']' :: rest))))) :=
        skipWs_cons_of_not_ws ',' _ (by decide)
      simp only [hskip]
      rw [if_pos trivial]
      have hlit : parseStringLit ('\n' :: (pad (indent + 4) ++
          (printStringLit s ++ (printStrArrayTail indent ss ++
            '\n' :: (pad indent ++ ']' :: rest))))) =
          some (s, printStrArrayTail indent ss ++
            '\n' :: (pad indent ++ ']' :: rest)) := by
        rw [parseStringLit_nl_pad, parseStringLit_printStringLit]
      simp only [hlit]
      rw [ih f rest (by simpa using Nat.lt_of_succ_lt_succ hf)]
      simp

/-- Parsing inverts printing for string arrays. -/
theorem parseStrArray_rt (indent : Nat) (elems : List String) (fuel : Nat)
    (rest : List Char) (hf : elems.length ≤ fuel) :
    parseStrArray fuel (printStrArray indent elems ++ rest) =
      some (elems, rest) := by
  cases elems with
  | nil =>
    rw [show printStrArray indent [] ++ rest = '[' :: ']' :: rest from rfl]
    unfold parseStrArray
    rw [skipWs_cons_of_not_ws '[' _ (by decide)]
    simp only []
    rw [if_pos trivial, skipWs_cons_of_not_ws ']' _ (by decide)]
    simp
  | cons s ss =>
    have hshape : printStrArray indent (s :: ss) ++ rest =
        '[' :: '\n' :: (pad (indent + 4) ++ (printStringLit s ++
          (printStrArrayTail indent ss ++
            '\n' :: (pad indent ++ ']' :: rest)))) := by
      show ('[' :: '\n' :: (pad (indent + 4) ++ printStringLit s ++
        (printStrArrayTail indent ss ++ '\n' :: (pad indent ++ [']'])))) ++
        rest = _
      simp [List.append_assoc]
    rw [hshape]
    unfold parseStrArray
    have hskip : skipWs ('[' :: '\n' :: (pad (indent + 4) ++
        (printStringLit s ++ (printStrArrayTail indent ss ++
          '\n' :: (pad indent ++ ']' :: rest))))) =
        '[' :: ('\n' :: (pad (indent + 4) ++ (printStringLit s ++
          (printStrArrayTail indent ss ++
            '\n' :: (pad indent ++ ']' :: rest))))) :=
      skipWs_cons_of_not_ws '[' _ (by decide)
    simp only [hskip]
    rw [if_pos trivial]
    have hX : printStringLit s ++ (printStrArrayTail indent ss ++
        '\n' :: (pad indent ++ ']' :: rest)) =
        '"' :: (escapeList s.data ++ (['"'] ++ (printStrArrayTail indent ss ++
          '\n' :: (pad indent ++ ']' :: rest)))) := by
      simp [printStringLit]
    have hs2 : skipWs ('\n' :: (pad (indent + 4) ++ (printStringLit s ++
        (printStrArrayTail indent ss ++
          '\n' :: (pad indent ++ ']' :: rest))))) =
        '"' :: (escapeList s.data ++ (['"'] ++ (printStrArrayTail indent ss ++
          '\n' :: (pad indent ++ ']' :: rest)))) := by
      rw [skipWs_newline, skipWs_pad, hX,
        skipWs_cons_of_not_ws '"' _ (by decide)]
    have hlit : parseStringLit ('"' :: (escapeList s.data ++
        (['"'] ++ (printStrArrayTail indent ss ++
          '\n' :: (pad indent ++ ']' :: rest))))) =
        some (s, printStrArrayTail indent ss ++
          '\n' :: (pad indent ++ ']' :: rest)) := by
      rw [← hX, parseStringLit_printStringLit]
    simp only [hs2, hlit]
    rw [parseStrArrayTail_rt indent ss fuel rest (by simpa using hf)]
    simp

/-- Parsing inverts printing for the tail of a pretty-printed object,
provided the value parser inverts the value printer on the stored values. -/
theorem parseObjTail_rt {α : Type}
    (parseVal : List Char → Option (α × List Char))
    (printVal : Nat → α → List Char) (indent : Nat)
    (entries : List (String × α)) :
    ∀ (fuel : Nat) (rest : List Char), entries.length < fuel →
    (∀ e ∈ entries, ∀ r, parseVal (' ' :: (printVal (indent + 4) e.2 ++ r)) =
      some (e.2, r)) →
    parseObjTail parseVal fuel (printObjTail indent printVal entries ++
      '\n' :: (pad indent ++ rbrace :: rest)) = some (entries, rest) := by
  induction entries with
  | nil =>
    intro fuel rest hf hval
    cases fuel with
    | zero => omega
    | succ f =>
      rw [show printObjTail indent printVal [] ++
        '\n' :: (pad indent ++ rbrace :: rest) =
        '\n' :: (pad indent ++ rbrace :: rest) from rfl]
      unfold parseObjTail
      rw [skipWs_newline, skipWs_pad,
        skipWs_cons_of_not_ws rbrace _ (by decide)]
      simp only []
      first
      | rw [if_pos trivial]
      | rw [if_pos (show rbrace = rbrace from rfl)]
  | cons e entries ih =>
    intro fuel rest hf hval
    obtain ⟨k, v⟩ := e
    cases fuel with
    | zero => omega
    | succ f =>
      have hshape : printObjTail indent printVal ((k, v) :: entries) ++
          '\n' :: (pad indent ++ rbrace :: rest) =
          ',' :: '\n' :: (pad (indent + 4) ++ (printStringLit k ++
            ':' :: ' ' :: (printVal (indent + 4) v ++
              (printObjTail indent printVal entries ++
                '\n' :: (pad indent ++ rbrace :: rest))))) := by
        show (',' :: '\n' :: (pad (indent + 4) ++ printStringLit k ++
          ':' :: ' ' :: (printVal (indent + 4) v ++
            printObjTail indent printVal entries))) ++
          '\n' :: (pad indent ++ rbrace :: rest) = _
        simp [List.append_assoc]
      rw [hshape]
      unfold parseObjTail
      have hskip : skipWs (',' :: '\n' :: (pad (indent + 4) ++
          (printStringLit k ++ ':' :: ' ' :: (printVal (indent + 4) v ++
            (printObjTail indent printVal entries ++
              '\n' :: (pad indent ++ rbrace :: rest)))))) =
          ',' :: ('\n' :: (pad (indent + 4) ++ (printStringLit k ++
            ':' :: ' ' :: (printVal (indent + 4) v ++
              (printObjTail indent printVal entries ++
                '\n' :: (pad indent ++ rbrace :: rest)))))) :=
        skipWs_cons_of_not_ws ',' _ (by decide)
      have hlit : parseStringLit ('\n' :: (pad (indent + 4) ++
          (printStringLit k ++ ':' :: ' ' :: (printVal (indent + 4) v ++
            (printObjTail indent printVal entries ++
              '\n' :: (pad indent ++ rbrace :: rest)))))) =
          some (k, ':' :: ' ' :: (printVal (indent + 4) v ++
            (printObjTail indent printVal entries ++
              '\n' :: (pad indent ++ rbrace :: rest)))) := by
        rw [parseStringLit_nl_pad, parseStringLit_printStringLit]
      have hcolon : skipWs (':' :: ' ' :: (printVal (indent + 4) v ++
          (printObjTail indent printVal entries ++
            '\n' :: (pad indent ++ rbrace :: rest)))) =
          ':' :: (' ' :: (printVal (indent + 4) v ++
            (printObjTail indent printVal entries ++
              '\n' :: (pad indent ++ rbrace :: rest)))) :=
        skipWs_cons_of_not_ws ':' _ (by decide)
      have hv : parseVal (' ' :: (printVal (indent + 4) v ++
          (printObjTail indent printVal entries ++
            '\n' :: (pad indent ++ rbrace :: rest)))) =
          some (v, printObjTail indent printVal entries ++
            '\n' :: (pad indent ++ rbrace :: rest)) :=
        hval (k, v) (by simp) _
      simp only [hskip, hlit, hcolon, hv]
      rw [ih f rest (by simpa using Nat.lt_of_succ_lt_succ hf)
        (fun e he r => hval e (by simp [he]) r)]
      have hcomma : ¬((',' : Char) = rbrace) := by decide
      simp [hcomma]

/-- Parsing inverts printing for pretty-printed objects. -/
theorem parseObj_rt {α : Type}
    (parseVal : List Char → Option (α × List Char))
    (printVal : Nat → α → List Char) (indent : Nat)
    (entries : List (String × α)) (fuel : Nat) (rest : List Char)
    (hf : entries.length ≤ fuel)
    (hval : ∀ e ∈ entries, ∀ r,
      parseVal (' ' :: (printVal (indent + 4) e.2 ++ r)) = some (e.2, r)) :
    parseObj parseVal fuel (printObj indent printVal entries ++ rest) =
      some (entries, rest) := by
  cases entries with
  | nil =>
    rw [show printObj indent printVal [] ++ rest =
      lbrace :: rbrace :: rest from rfl]
    unfold parseObj
    rw [skipWs_cons_of_not_ws lbrace _ (by decide)]
    simp only []
    first
    | rw [if_pos trivial]
    | rw [if_pos (show lbrace = lbrace from rfl)]
    rw [skipWs_cons_of_not_ws rbrace _ (by decide)]
    simp
  | cons e entries =>
    obtain ⟨k, v⟩ := e
    have hshape : printObj indent printVal ((k, v) :: entries) ++ rest =
        lbrace :: '\n' :: (pad (indent + 4) ++ (printStringLit k ++
          ':' :: ' ' :: (printVal (indent + 4) v ++
            (printObjTail indent printVal entries ++
              '\n' :: (pad indent ++ rbrace :: rest))))) := by
      show (lbrace :: '\n' :: (pad (indent + 4) ++ printStringLit k ++
        ':' :: ' ' :: (printVal (indent + 4) v ++
          printObjTail indent printVal entries ++
          '\n' :: (pad indent ++ [rbrace])))) ++ rest = _
      simp [List.append_assoc]
    rw [hshape]
    unfold parseObj
    have hskip : skipWs (lbrace :: '\n' :: (pad (indent + 4) ++
        (printStringLit k ++ ':' :: ' ' :: (printVal (indent + 4) v ++
          (printObjTail indent printVal entries ++
            '\n' :: (pad indent ++ rbrace :: rest)))))) =
        lbrace :: ('\n' :: (pad (indent + 4) ++ (printStringLit k ++
          ':' :: ' ' :: (printVal (indent + 4) v ++
            (printObjTail indent printVal entries ++
              '\n' :: (pad indent ++ rbrace :: rest)))))) :=
      skipWs_cons_of_not_ws lbrace _ (by decide)
    simp only [hskip]
    first
    | rw [if_pos trivial]
    | rw [if_pos (show lbrace = lbrace from rfl)]
    have hX : printStringLit k ++ (':' :: ' ' :: (printVal (indent + 4) v ++
        (printObjTail indent printVal entries ++
          '\n' :: (pad indent ++ rbrace :: rest)))) =
        '"' :: (escapeList k.data ++ (['"'] ++
          (':' :: ' ' :: (printVal (indent + 4) v ++
            (printObjTail indent printVal entries ++
              '\n' :: (pad indent ++ rbrace :: rest)))))) := by
      simp [printStringLit]
    have hs2 : skipWs ('\n' :: (pad (indent + 4) ++ (printStringLit k ++
        ':' :: ' ' :: (printVal (indent + 4) v ++
          (printObjTail indent printVal entries ++
            '\n' :: (pad indent ++ rbrace :: rest)))))) =
        '"' :: (escapeList k.data ++ (['"'] ++
          (':' :: ' ' :: (printVal (indent + 4) v ++
            (printObjTail indent printVal entries ++
              '\n' :: (pad indent ++ rbrace :: rest)))))) := by
      rw [skipWs_newline, skipWs_pad]
      rw [hX, skipWs_cons_of_not_ws '"' _ (by decide)]
    have hlit : parseStringLit ('"' :: (escapeList k.data ++ (['"'] ++
        (':' :: ' ' :: (printVal (indent + 4) v ++
          (printObjTail indent printVal entries ++
            '\n' :: (pad indent ++ rbrace :: rest))))))) =
        some (k, ':' :: ' ' :: (printVal (indent + 4) v ++
          (printObjTail indent printVal entries ++
            '\n' :: (pad indent ++ rbrace :: rest)))) := by
      rw [← hX, parseStringLit_printStringLit]
    have hcolon : skipWs (':' :: ' ' :: (printVal (indent + 4) v ++
        (printObjTail indent printVal entries ++
          '\n' :: (pad indent ++ rbrace :: rest)))) =
        ':' :: (' ' :: (printVal (indent + 4) v ++
          (printObjTail indent printVal entries ++
            '\n' :: (pad indent ++ rbrace :: rest)))) :=
      skipWs_cons_of_not_ws ':' _ (by decide)
    have hv : parseVal (' ' :: (printVal (indent + 4) v ++
        (printObjTail indent printVal entries ++
          '\n' :: (pad indent ++ rbrace :: rest)))) =
        some (v, printObjTail indent printVal entries ++
          '\n' :: (pad indent ++ rbrace :: rest)) :=
      hval (k, v) (by simp) _
    simp only [hs2, hlit, hcolon, hv]
    rw [parseObjTail_rt parseVal printVal indent entries fuel rest
      (by simpa using hf) (fun e he r => hval e (by simp [he]) r)]
    have hquote : ¬(('"' : Char) = rbrace) := by decide
    simp [hquote]

/-! Schema-level serializer and deserializer for the Settings Document. -/

def userRecordEntries (ur : UserRecord) : List (String × List String) :=
  match ur.permissions with
  | none => []
  | some perms => [("permissions", perms)]

def printUserRecord (indent : Nat) (ur : UserRecord) : List Char :=
  printObj indent printStrArray (userRecordEntries ur)

def parseUserRecord (fuel : Nat) (l : List Char) :
    Option (UserRecord × List Char) :=
  match parseObj (parseStrArray fuel) fuel l with
  | none => none
  | some ([], rest) => some (⟨none⟩, rest)
  | some ([(k, perms)], rest) =>
    if k = "permissions" then some (⟨some perms⟩, rest) else none
  | some (_, _) => none

def threadRecordEntries (tr : ThreadRecord) :
    List (String × List (String × UserRecord)) :=
  match tr.users with
  | none => []
  | some users => [("users", users)]

def printUsersObj (indent : Nat) (users : List (String × UserRecord)) :
    List Char :=
  printObj indent printUserRecord users

def printThreadRecord (indent : Nat) (tr : ThreadRecord) : List Char :=
  printObj indent printUsersObj (threadRecordEntries tr)

def parseUsersObj (fuel : Nat) (l : List Char) :
    Option (List (String × UserRecord) × List Char) :=
  parseObj (parseUserRecord fuel) fuel l

def parseThreadRecord (fuel : Nat) (l : List Char) :
    Option (ThreadRecord × List Char) :=
  match parseObj (parseUsersObj fuel) fuel l with
  | none => none
  | some ([], rest) => some (⟨none⟩, rest)
  | some ([(k, users)], rest) =>
    if k = "users" then some (⟨some users⟩, rest) else none
  | some (_, _) => none

/-- `JSON.stringify(doc, undefined, 4)` as a character list. -/
def printDocChars (doc : SettingsDoc) : List Char :=
  printObj 0 printThreadRecord doc

def parseDocVal (fuel : Nat) (l : List Char) :
    Option (SettingsDoc × List Char) :=
  parseObj (parseThreadRecord fuel) fuel l

/-- `JSON.parse` of a settings artifact (schema-shaped documents only;
trailing whitespace allowed, anything else rejected). -/
def jsonParseDoc (s : String) : Option SettingsDoc :=
  match parseDocVal (s.data.length + 1) s.data with
  | none => none
  | some (doc, rest) => if skipWs rest = [] then some doc else none

/-- `PermissionUtil.getPermissionSettings`: read the artifact, substitute
`"{}"` for an empty file, `JSON.parse` it. -/
def getPermissionSettings (artifact : String) : Option SettingsDoc :=
  jsonParseDoc (if artifact = "" then "{}" else artifact)

/-- `PermissionUtil.savePermissionSettings`: the artifact content written,
`JSON.stringify(newPermissionSettings, undefined, 4)`. -/
def savePermissionSettings (doc : SettingsDoc) : String :=
  ⟨printDocChars doc⟩

theorem skipWs_space (l : List Char) : skipWs (' ' :: l) = skipWs l := by
  simp [skipWs, List.dropWhile_cons, jsonWs]

theorem parseObj_space {α : Type}
    (parseVal : List Char → Option (α × List Char)) (fuel : Nat)
    (l : List Char) :
    parseObj parseVal fuel (' ' :: l) = parseObj parseVal fuel l := by
  unfold parseObj
  rw [skipWs_space]

theorem parseStrArray_space (fuel : Nat) (l : List Char) :
    parseStrArray fuel (' ' :: l) = parseStrArray fuel l := by
  unfold parseStrArray
  rw [skipWs_space]

theorem parseUserRecord_space (fuel : Nat) (l : List Char) :
    parseUserRecord fuel (' ' :: l) = parseUserRecord fuel l := by
  unfold parseUserRecord
  rw [parseObj_space]

theorem parseThreadRecord_space (fuel : Nat) (l : List Char) :
    parseThreadRecord fuel (' ' :: l) = parseThreadRecord fuel l := by
  unfold parseThreadRecord
  rw [parseObj_space]

/-! Sizes bounding the fuel needed by the entry loops. -/

def userRecordSize (ur : UserRecord) : Nat :=
  match ur.permissions with
  | none => 1
  | some perms => perms.length + 1

def usersObjSize (users : List (String × UserRecord)) : Nat :=
  (users.map (fun q => userRecordSize q.2)).sum + users.length + 1

def threadRecordSize (tr : ThreadRecord) : Nat :=
  match tr.users with
  | none => 1
  | some users => usersObjSize users + 1

def docSize (doc : SettingsDoc) : Nat :=
  (doc.map (fun p => threadRecordSize p.2)).sum + doc.length + 1

/-- Parsing inverts printing for User Records. -/
theorem parseUserRecord_rt (indent fuel : Nat) (ur : UserRecord)
    (rest : List Char) (hf : userRecordSize ur ≤ fuel) :
    parseUserRecord fuel (printUserRecord indent ur ++ rest) =
      some (ur, rest) := by
  obtain ⟨permsOpt⟩ := ur
  unfold parseUserRecord printUserRecord
  cases permsOpt with
  | none =>
    rw [show userRecordEntries ⟨none⟩ = [] from rfl]
    rw [parseObj_rt (parseStrArray fuel) printStrArray indent [] fuel rest
      (by simp) (by simp)]
  | some perms =>
    rw [show userRecordEntries ⟨some perms⟩ = [("permissions", perms)] from rfl]
    rw [parseObj_rt (parseStrArray fuel) printStrArray indent
      [("permissions", perms)] fuel rest
      (by simp only [List.length_singleton]
          simp only [userRecordSize] at hf
          omega)
      ?_]
    · simp
    · intro e he r
      simp only [List.mem_singleton] at he
      subst he
      rw [parseStrArray_space, parseStrArray_rt]
      show perms.length ≤ fuel
      simp only [userRecordSize] at hf
      omega

/-- Parsing inverts printing for `users` mappings. -/
theorem parseUsersObj_rt (indent fuel : Nat)
    (users : List (String × UserRecord)) (rest : List Char)
    (hf : usersObjSize users ≤ fuel) :
    parseUsersObj fuel (printUsersObj indent users ++ rest) =
      some (users, rest) := by
  unfold parseUsersObj printUsersObj
  rw [parseObj_rt (parseUserRecord fuel) printUserRecord indent users fuel rest
    (by simp only [usersObjSize] at hf; omega) ?_]
  intro e he r
  rw [parseUserRecord_space, parseUserRecord_rt]
  have hmem : userRecordSize e.2 ∈ users.map (fun q => userRecordSize q.2) :=
    List.mem_map_of_mem _ he
  have hle : userRecordSize e.2 ≤
      (users.map (fun q => userRecordSize q.2)).sum :=
    List.single_le_sum (fun x _ => Nat.zero_le x) _ hmem
  simp only [usersObjSize] at hf
  omega

/-- Parsing inverts printing for Thread Records. -/
theorem parseThreadRecord_rt (indent fuel : Nat) (tr : ThreadRecord)
    (rest : List Char) (hf : threadRecordSize tr ≤ fuel) :
    parseThreadRecord fuel (printThreadRecord indent tr ++ rest) =
      some (tr, rest) := by
  obtain ⟨usersOpt⟩ := tr
  unfold parseThreadRecord printThreadRecord
  cases usersOpt with
  | none =>
    rw [show threadRecordEntries ⟨none⟩ = [] from rfl]
    rw [parseObj_rt (parseUsersObj fuel) printUsersObj indent [] fuel rest
      (by simp) (by simp)]
  | some users =>
    rw [show threadRecordEntries ⟨some users⟩ = [("users", users)] from rfl]
    rw [parseObj_rt (parseUsersObj fuel) printUsersObj indent
      [("users", users)] fuel rest
      (by simp only [List.length_singleton]
          simp only [threadRecordSize, usersObjSize] at hf
          omega) ?_]
    · simp
    · intro e he r
      simp only [List.mem_singleton] at he
      subst he
      show parseUsersObj fuel (' ' :: (printUsersObj (indent + 4) users ++ r)) =
        some (users, r)
      unfold parseUsersObj printUsersObj
      rw [parseObj_space]
      show parseUsersObj fuel (printUsersObj (indent + 4) users ++ r) =
        some (users, r)
      rw [parseUsersObj_rt]
      simp only [threadRecordSize] at hf
      omega

/-- Parsing inverts printing for whole Settings Documents. -/
theorem parseDocVal_rt (fuel : Nat) (doc : SettingsDoc) (rest : List Char)
    (hf : docSize doc ≤ fuel) :
    parseDocVal fuel (printDocChars doc ++ rest) = some (doc, rest) := by
  unfold parseDocVal printDocChars
  rw [parseObj_rt (parseThreadRecord fuel) printThreadRecord 0 doc fuel rest
    (by simp only [docSize] at hf; omega) ?_]
  intro e he r
  rw [parseThreadRecord_space, parseThreadRecord_rt]
  have hmem : threadRecordSize e.2 ∈ doc.map (fun p => threadRecordSize p.2) :=
    List.mem_map_of_mem _ he
  have hle : threadRecordSize e.2 ≤
      (doc.map (fun p => threadRecordSize p.2)).sum :=
    List.single_le_sum (fun x _ => Nat.zero_le x) _ hmem
  simp only [docSize] at hf
  omega

/-! The printed form is at least as long as the size that bounds the fuel,
so parsing with fuel `length + 1` always succeeds on printed documents. -/

theorem printStringLit_length_ge (s : String) :
    2 ≤ (printStringLit s).length := by
  simp [printStringLit]

theorem printStrArrayTail_length_ge (indent : Nat) (ss : List String) :
    ss.length ≤ (printStrArrayTail indent ss).length := by
  induction ss with
  | nil => simp [printStrArrayTail]
  | cons s tl ih =>
    have h2 := printStringLit_length_ge s
    simp only [printStrArrayTail, List.length_cons, List.length_append]
    omega

theorem printStrArray_length_ge (indent : Nat) (elems : List String) :
    elems.length + 1 ≤ (printStrArray indent elems).length := by
  cases elems with
  | nil => simp [printStrArray]
  | cons s tl =>
    have h2 := printStringLit_length_ge s
    have h3 := printStrArrayTail_length_ge indent tl
    simp only [printStrArray, List.length_cons, List.length_append]
    omega

theorem printObjTail_length_ge {α : Type} (indent : Nat)
    (printVal : Nat → α → List Char) (f : α → Nat)
    (entries : List (String × α))
    (hval : ∀ e ∈ entries, f e.2 + 1 ≤ (printVal (indent + 4) e.2).length) :
    (entries.map (fun e => f e.2)).sum + entries.length ≤
      (printObjTail indent printVal entries).length := by
  induction entries with
  | nil => simp [printObjTail]
  | cons e tl ih =>
    obtain ⟨k, v⟩ := e
    have h2 := printStringLit_length_ge k
    have h3 : f v + 1 ≤ (printVal (indent + 4) v).length :=
      hval (k, v) (by simp)
    have h4 := ih (fun e he => hval e (by simp [he]))
    simp only [printObjTail, List.length_cons, List.length_append,
      List.map_cons, List.sum_cons]
    omega

theorem printObj_length_ge {α : Type} (indent : Nat)
    (printVal : Nat → α → List Char) (f : α → Nat)
    (entries : List (String × α))
    (hval : ∀ e ∈ entries, f e.2 + 1 ≤ (printVal (indent + 4) e.2).length) :
    (entries.map (fun e => f e.2)).sum + entries.length + 2 ≤
      (printObj indent printVal entries).length := by
  cases entries with
  | nil => simp [printObj]
  | cons e tl =>
    obtain ⟨k, v⟩ := e
    have h2 := printStringLit_length_ge k
    have h3 : f v + 1 ≤ (printVal (indent + 4) v).length :=
      hval (k, v) (by simp)
    have h4 := printObjTail_length_ge indent printVal f tl
      (fun e he => hval e (by simp [he]))
    simp only [printObj, List.length_cons, List.length_append,
      List.map_cons, List.sum_cons]
    omega

theorem printUserRecord_length_ge (indent : Nat) (ur : UserRecord) :
    userRecordSize ur + 1 ≤ (printUserRecord indent ur).length := by
  obtain ⟨permsOpt⟩ := ur
  cases permsOpt with
  | none =>
    show 2 ≤ (printObj indent printStrArray []).length
    simp [printObj]
  | some perms =>
    have h := printObj_length_ge indent printStrArray List.length
      [("permissions", perms)]
      (fun e he => by
        simp only [List.mem_singleton] at he
        subst he
        exact printStrArray_length_ge (indent + 4) perms)
    show perms.length + 1 + 1 ≤ (printObj indent printStrArray
      [("permissions", perms)]).length
    simp only [List.map_cons, List.map_nil, List.sum_cons, List.sum_nil,
      List.length_singleton] at h
    omega

theorem printUsersObj_length_ge (indent : Nat)
    (users : List (String × UserRecord)) :
    usersObjSize users + 1 ≤ (printUsersObj indent users).length := by
  have h := printObj_length_ge indent printUserRecord userRecordSize users
    (fun e _ => printUserRecord_length_ge (indent + 4) e.2)
  simp only [usersObjSize, printUsersObj]
  omega

theorem printThreadRecord_length_ge (indent : Nat) (tr : ThreadRecord) :
    threadRecordSize tr + 1 ≤ (printThreadRecord indent tr).length := by
  obtain ⟨usersOpt⟩ := tr
  cases usersOpt with
  | none =>
    show 2 ≤ (printObj indent printUsersObj []).length
    simp [printObj]
  | some users =>
    have h := printObj_length_ge indent printUsersObj usersObjSize
      [("users", users)]
      (fun e he => by
        simp only [List.mem_singleton] at he
        subst he
        exact printUsersObj_length_ge (indent + 4) users)
    show usersObjSize users + 1 + 1 ≤ (printObj indent printUsersObj
      [("users", users)]).length
    simp only [List.map_cons, List.map_nil, List.sum_cons, List.sum_nil,
      List.length_singleton] at h
    omega

theorem printDocChars_length_ge (doc : SettingsDoc) :
    docSize doc ≤ (printDocChars doc).length := by
  have h := printObj_length_ge 0 printThreadRecord threadRecordSize doc
    (fun e _ => printThreadRecord_length_ge 4 e.2)
  simp only [docSize, printDocChars]
  omega

/-- `JSON.parse` inverts `JSON.stringify(_, undefined, 4)` on every Settings
Document. -/
theorem jsonParseDoc_print (doc : SettingsDoc) :
    jsonParseDoc (savePermissionSettings doc) = some doc := by
  unfold jsonParseDoc savePermissionSettings
  rw [show (⟨printDocChars doc⟩ : String).data = printDocChars doc from rfl]
  have hfuel : docSize doc ≤ (printDocChars doc).length + 1 :=
    Nat.le_trans (printDocChars_length_ge doc) (Nat.le_succ _)
  have h1 : parseDocVal ((printDocChars doc).length + 1) (printDocChars doc) =
      some (doc, []) := by
    have h2 := parseDocVal_rt ((printDocChars doc).length + 1) doc [] hfuel
    simpa using h2
  simp only [h1]
  rfl

/-- The printed artifact is never the empty string (it starts with the
opening brace). -/
theorem savePermissionSettings_ne_empty (doc : SettingsDoc) :
    ¬(savePermissionSettings doc = "") := by
  intro h
  have hdata : printDocChars doc = [] := congrArg String.data h
  cases doc with
  | nil => simp [printDocChars, printObj] at hdata
  | cons e tl =>
    obtain ⟨k, v⟩ := e
    simp [printDocChars, printObj] at hdata

/-! ## C8: `save` after `load` is a fixed point of the settings artifact -/

/-- **C8.** Reserializing an already-loaded document yields an equivalent
artifact: whatever `getPermissionSettings` read, writing it back with
`savePermissionSettings` and loading again returns the same document; and an
empty underlying artifact is loaded as the empty document. -/
theorem saveLoad_fixedPoint :
    (∀ artifact doc, getPermissionSettings artifact = some doc →
      getPermissionSettings (savePermissionSettings doc) = some doc) ∧
    getPermissionSettings "" = some [] := by
  constructor
  · intro artifact doc _
    unfold getPermissionSettings
    rw [if_neg (savePermissionSettings_ne_empty doc)]
    exact jsonParseDoc_print doc
  · decide

/-- Witness for C8: loading `"{}"` then saving and reloading. -/
theorem saveLoad_fixedPoint_witness :
    getPermissionSettings (savePermissionSettings []) = some [] :=
  saveLoad_fixedPoint.1 "{}" [] (by decide)

end Snoopbot
